import Mathlib

/-!
# Fixed-capacity decimal bignum arithmetic (`bignum.c`)

A shallow embedding of the arithmetic engine of `bignum.c` and a verification
of its contract.

Modelling conventions.

* `char digits[MAX_DIGITS]` is a `List Int`; a read is `rd` and a write is `wr`.
  A read outside the list returns `0` and a write outside it is dropped; the
  theorems about the arithmetic carry `digits.length = MAX_DIGITS` and an index
  bound that keeps each access of the code inside the buffer.
* `tint signbit` and the digits are `Int`.  With digits in `0..9` every
  intermediate value of the digit loops lies in `-10..19`, so the `(char)` casts
  are the identity; C's `/` and `%` on `int` are `Int.tdiv` and `Int.tmod`.
* `uint lastdigit` is a `Nat`; the wrap-around of `uint i = -1; ++i` in
  `int_to_bignum` is explicit (`% 2^32`).
* The C functions write their result through `r` and flip operand signs in place.
  `add_bignum`, `sub_bignum`, `mul_bignum` and `div_bignum` therefore return the
  triple `(r, a, b)`: the result together with the final state of both operand
  objects (three distinct objects).  Each of them starts with
  `initialize_bignum(r)`, which overwrites every field of `r`, so the previous
  content of `r` is not an input.
* `add_bignum` and `sub_bignum` call each other; the recursion is structural on a
  call budget `fuel`, and `none` means the budget ran out.  The `while` loop of
  `div_bignum` uses the same budget.
-/

namespace Bignum

/-- Buffer capacity, `#define MAX_DIGITS (128)`. -/
def MAX_DIGITS : Nat := 128

/-- Sign of zero and of positive numbers, `#define POSITIVE (+1)`. -/
def POSITIVE : Int := 1

/-- Sign of negative numbers, `#define NEGATIVE (-1)`. -/
def NEGATIVE : Int := -1

/-- The C struct `bignum`. -/
structure bignum where
  digits : List Int
  signbit : Int
  lastdigit : Nat
deriving DecidableEq

/-- Read `digits[i]`. -/
def rd (ds : List Int) (i : Nat) : Int := ds.getD i 0

/-- Write `digits[i] = v`. -/
def wr (ds : List Int) (i : Nat) (v : Int) : List Int := ds.set i v

/-- Macro `is_zero(n)`. -/
def is_zero (n : bignum) : Bool := n.lastdigit == 0 && rd n.digits 0 == 0

/-- Macro `is_one(n)`. -/
def is_one (n : bignum) : Bool := n.lastdigit == 0 && rd n.digits 0 == 1

/-- Signed 32-bit wrap-around of an `int` result. -/
def wrap32 (x : Int) : Int := (x + 2 ^ 31) % 2 ^ 32 - 2 ^ 31

/-- Macro `abs(x)` on `int`, the negation taken modulo `2^32`. -/
def abs (x : Int) : Int := if x < 0 then wrap32 (-x) else x

/-- Conversion of an `int` to `unsigned`. -/
def to_uint (x : Int) : Nat := (x % 2 ^ 32).toNat

/-- The loop `while (t > 0) { n->digits[++i] = t % 10; t /= 10; }` of
`int_to_bignum`, with `i` an `unsigned`.  The first argument is a budget; `t`
strictly decreases, so a budget of `t` is never used up. -/
def peel : Nat → Nat → Nat → List Int → Nat × List Int
  | 0, _, i, ds => (i, ds)
  | f + 1, t, i, ds =>
    if t > 0 then
      let i1 := (i + 1) % 2 ^ 32
      peel f (t / 10) i1 (wr ds i1 ((t % 10 : Nat) : Int))
    else (i, ds)

/-- The C function `int_to_bignum(m, n)`; returns the new `*n`. -/
def int_to_bignum (m : Int) : bignum :=
  let signbit := if m ≥ 0 then POSITIVE else NEGATIVE
  let digits := List.replicate MAX_DIGITS (0 : Int)
  let t := to_uint (abs m)
  let i := 2 ^ 32 - 1
  let p := peel t t i digits
  { digits := p.2, signbit := signbit, lastdigit := if m ≠ 0 then p.1 else 0 }

/-- Macro `initialize_bignum(n)`, that is `int_to_bignum(0, n)`. -/
def initialize_bignum : bignum := int_to_bignum 0

/-- The loop `while (n->lastdigit > 0 && n->digits[n->lastdigit] == 0) n->lastdigit--`
of `zero_justify`, as a function of the current `lastdigit`. -/
def strip (ds : List Int) : Nat → Nat
  | 0 => 0
  | l + 1 => if rd ds (l + 1) = 0 then strip ds l else l + 1

/-- Macro `zero_justify(n)`. -/
def zero_justify (n : bignum) : bignum :=
  let n1 : bignum := { n with lastdigit := strip n.digits n.lastdigit }
  if is_zero n1 then { n1 with signbit := POSITIVE } else n1

/-- The digit loop of `compare_bignum`, `for (i = a->lastdigit; ~i != 0; i--)`;
the counter argument is `i + 1`. -/
def cmp_loop (a b : List Int) (signbit : Int) : Nat → Int
  | 0 => 0
  | i + 1 =>
    if rd a i > rd b i then POSITIVE * signbit
    else if rd a i < rd b i then NEGATIVE * signbit
    else cmp_loop a b signbit i

/-- The C function `compare_bignum(a, b)`. -/
def compare_bignum (a b : bignum) : Int :=
  let signbit := a.signbit
  if a.signbit ≠ b.signbit then signbit
  else if a.lastdigit > b.lastdigit then POSITIVE * signbit
  else if a.lastdigit < b.lastdigit then NEGATIVE * signbit
  else cmp_loop a.digits b.digits signbit (a.lastdigit + 1)

/-- The carry loop of `add_bignum`, `for (i = 0; i <= len; i++)`: the first
argument counts the iterations left; returns the digits of `r` and the last carry. -/
def add_loop (a b : List Int) : Nat → Nat → Int → List Int → List Int × Int
  | 0, _, carry, r => (r, carry)
  | n + 1, i, carry, r =>
    let t := carry + rd a i + rd b i
    add_loop a b n (i + 1) (t.tdiv 10) (wr r i (t.tmod 10))

/-- The borrow loop of `sub_bignum`, `for (i = 0; i <= len; i++)`.  The test
`a->digits > 0` compares the address of the array with null and always holds, so
`borrow` is reset in every iteration. -/
def sub_loop (a b : List Int) : Nat → Nat → Int → List Int → List Int × Int
  | 0, _, borrow, r => (r, borrow)
  | n + 1, i, borrow, r =>
    let t := rd a i - rd b i - borrow
    let borrow := (0 : Int)
    let t1 := if t < 0 then t + 10 else t
    let borrow := if t < 0 then 1 else borrow
    sub_loop a b n (i + 1) borrow (wr r i (t1.tmod 10))

mutual

/-- The C function `add_bignum(r, a, b)`; returns `(*r, *a, *b)`. -/
def add_bignum : Nat → bignum → bignum → Option (bignum × bignum × bignum)
  | 0, _, _ => none
  | fuel + 1, a, b =>
    let r := initialize_bignum
    if a.signbit = b.signbit then
      let r : bignum := { r with signbit := a.signbit }
      let len := max a.lastdigit b.lastdigit + 1
      let r : bignum := { r with lastdigit := len }
      let r : bignum := { r with digits := (add_loop a.digits b.digits (len + 1) 0 0 r.digits).1 }
      some (zero_justify r, a, b)
    else if a.signbit = NEGATIVE then
      let a1 : bignum := { a with signbit := POSITIVE }
      match sub_bignum fuel b a1 with
      | none => none
      | some (r, b2, a2) => some (r, { a2 with signbit := NEGATIVE }, b2)
    else
      let b1 : bignum := { b with signbit := POSITIVE }
      match sub_bignum fuel a b1 with
      | none => none
      | some (r, a2, b2) => some (r, a2, { b2 with signbit := NEGATIVE })

/-- The C function `sub_bignum(r, a, b)`; returns `(*r, *a, *b)`. -/
def sub_bignum : Nat → bignum → bignum → Option (bignum × bignum × bignum)
  | 0, _, _ => none
  | fuel + 1, a, b =>
    let r := initialize_bignum
    if a.signbit = NEGATIVE ∨ b.signbit = NEGATIVE then
      let b1 : bignum := { b with signbit := -1 * b.signbit }
      match add_bignum fuel a b1 with
      | none => none
      | some (r, a2, b2) => some (r, a2, { b2 with signbit := -1 * b2.signbit })
    else if compare_bignum a b = NEGATIVE then
      match sub_bignum fuel b a with
      | none => none
      | some (r, b2, a2) => some ({ r with signbit := NEGATIVE }, a2, b2)
    else
      let len := max a.lastdigit b.lastdigit
      let r : bignum := { r with lastdigit := len }
      let r : bignum := { r with digits := (sub_loop a.digits b.digits (len + 1) 0 0 r.digits).1 }
      some (zero_justify r, a, b)

end

/-- First loop of `decimal_shl`, `for (i = n->lastdigit; ~i != 0; i--)
n->digits[i+d] = n->digits[i]`; the counter argument is `i + 1`. -/
def shl_loop (d : Nat) : Nat → List Int → List Int
  | 0, ds => ds
  | i + 1, ds => shl_loop d i (wr ds (i + d) (rd ds i))

/-- Second loop of `decimal_shl`, `for (i = 0; i < d; i++) n->digits[i] = 0`;
the first argument counts the iterations left. -/
def fill_loop : Nat → Nat → List Int → List Int
  | 0, _, ds => ds
  | n + 1, i, ds => fill_loop n (i + 1) (wr ds i 0)

/-- The C function `decimal_shl(n, d)`; returns the new `*n`. -/
def decimal_shl (n : bignum) (d : Nat) : bignum :=
  if is_zero n || d == 0 then n
  else
    { n with
      digits := fill_loop d 0 (shl_loop d (n.lastdigit + 1) n.digits)
      lastdigit := n.lastdigit + d }

/-- Inner loop of `mul_bignum`, `for (j = 1; j <= b->digits[i]; j++)
{ add_bignum(&tmp, r, &row); *r = tmp; }`; the counter is the number of
iterations left; returns `(*r, row)`. -/
def mul_inner (fuel : Nat) : Nat → bignum → bignum → Option (bignum × bignum)
  | 0, r, row => some (r, row)
  | j + 1, r, row =>
    match add_bignum fuel r row with
    | none => none
    | some (tmp, _, row2) => mul_inner fuel j tmp row2

/-- Outer loop of `mul_bignum`, `for (i = 0; i <= b->lastdigit; i++)`; the
counter is the number of iterations left; returns `(*r, row)`. -/
def mul_outer (fuel : Nat) (b : bignum) : Nat → Nat → bignum → bignum → Option (bignum × bignum)
  | 0, _, r, row => some (r, row)
  | n + 1, i, r, row =>
    match mul_inner fuel (rd b.digits i).toNat r row with
    | none => none
    | some (r2, row2) => mul_outer fuel b n (i + 1) r2 (decimal_shl row2 1)

/-- The C function `mul_bignum(r, a, b)`; returns `(*r, *a, *b)`. -/
def mul_bignum (fuel : Nat) (a b : bignum) : Option (bignum × bignum × bignum) :=
  let r := initialize_bignum
  if is_zero a || is_zero b then some (r, a, b)
  else if is_one a then some ({ b with signbit := b.signbit * a.signbit }, a, b)
  else if is_one b then some ({ a with signbit := a.signbit * b.signbit }, a, b)
  else
    let row := a
    match mul_outer fuel b (b.lastdigit + 1) 0 r row with
    | none => none
    | some (r2, _) =>
      let r3 : bignum := { r2 with signbit := a.signbit * b.signbit }
      some (zero_justify r3, a, b)

/-- The loop `while (compare_bignum(&row, b) != NEGATIVE) { r->digits[i]++;
sub_bignum(&tmp, &row, b); row = tmp; }` of `div_bignum`; returns `(*r, row, *b)`. -/
def div_while (sfuel : Nat) (i : Nat) : Nat → bignum → bignum → bignum →
    Option (bignum × bignum × bignum)
  | 0, _, _, _ => none
  | f + 1, r, row, b =>
    if compare_bignum row b ≠ NEGATIVE then
      let r1 : bignum := { r with digits := wr r.digits i (rd r.digits i + 1) }
      match sub_bignum sfuel row b with
      | none => none
      | some (tmp, _, b2) => div_while sfuel i f r1 tmp b2
    else some (r, row, b)

/-- The loop `for (i = a->lastdigit; ~i != 0; i--)` of `div_bignum`; the counter
argument is `i + 1`; returns `(*r, row, *b)`. -/
def div_loop (fuel : Nat) (a : bignum) : Nat → bignum → bignum → bignum →
    Option (bignum × bignum × bignum)
  | 0, r, row, b => some (r, row, b)
  | i + 1, r, row, b =>
    let row1 := decimal_shl row 1
    let row2 : bignum := { row1 with digits := wr row1.digits 0 (rd a.digits i) }
    let r1 : bignum := { r with digits := wr r.digits i 0 }
    match div_while fuel i fuel r1 row2 b with
    | none => none
    | some (r2, row3, b2) => div_loop fuel a i r2 row3 b2

/-- The C function `div_bignum(r, a, b)`; returns `(*r, *a, *b)`. -/
def div_bignum (fuel : Nat) (a b : bignum) : Option (bignum × bignum × bignum) :=
  let r := initialize_bignum
  if is_zero a || compare_bignum a b == NEGATIVE then some (r, a, b)
  else if is_one b then some ({ a with signbit := a.signbit * b.signbit }, a, b)
  else
    let r : bignum := { r with signbit := a.signbit * b.signbit }
    let asign := a.signbit
    let bsign := b.signbit
    let b1 : bignum := { b with signbit := POSITIVE }
    let a1 : bignum := { a with signbit := b1.signbit }
    let row := initialize_bignum
    let r : bignum := { r with lastdigit := a1.lastdigit }
    match div_loop fuel a1 (a1.lastdigit + 1) r row b1 with
    | none => none
    | some (r2, _, b2) =>
      some (zero_justify r2, { a1 with signbit := asign }, { b2 with signbit := bsign })

/-- The negation used to state the cancellation property of `add_bignum`: `a` with
its sign flipped when `a` is not zero, `a` itself when `a` is zero.  The source has
no such function; callers flip `signbit` in place. -/
def negate (a : bignum) : bignum :=
  if is_zero a then a else { a with signbit := -1 * a.signbit }

/-- Two bignums with the same `signbit`, the same `lastdigit` and the same digits at
the indices `0..k`. -/
def same_upto (k : Nat) (x y : bignum) : Prop :=
  x.signbit = y.signbit ∧ x.lastdigit = y.lastdigit ∧
    ∀ i, i ≤ k → rd x.digits i = rd y.digits i

/-- Magnitude of the low `k` digits: the sum of `digits[i] * 10^i` over `i < k`. -/
def mag (ds : List Int) : Nat → Int
  | 0 => 0
  | k + 1 => mag ds k + rd ds k * 10 ^ k

/-- Magnitude of a bignum: the sum of `digits[i] * 10^i` over `i <= lastdigit`. -/
def magnitude (n : bignum) : Int := mag n.digits (n.lastdigit + 1)

/-- The integer a bignum denotes: `signbit` times the sum of `digits[i] * 10^i`
over `i <= lastdigit`. -/
def value (n : bignum) : Int := n.signbit * magnitude n

/-- A full buffer of decimal digits with a sign of `+1` or `-1`, `lastdigit` inside
the buffer and nothing but zeros above `lastdigit`; `lastdigit` may still sit on a
zero digit. -/
def loose (n : bignum) : Prop :=
  n.digits.length = MAX_DIGITS ∧
  (n.signbit = POSITIVE ∨ n.signbit = NEGATIVE) ∧
  n.lastdigit < MAX_DIGITS ∧
  (∀ i, i < MAX_DIGITS → 0 ≤ rd n.digits i ∧ rd n.digits i ≤ 9) ∧
  (∀ i, i < MAX_DIGITS → n.lastdigit < i → rd n.digits i = 0)

/-- Well-formed bignum with a normalised length: `loose`, and `lastdigit` sits on a
non-zero digit unless it is `0`.  A zero of either sign is allowed; `sub_bignum`
passes a negative zero to `add_bignum`. -/
def wf (n : bignum) : Prop :=
  loose n ∧ (n.lastdigit = 0 ∨ rd n.digits n.lastdigit ≠ 0)

/-- Normal form of the results: well-formed, and zero carries the sign `POSITIVE`. -/
def normal (n : bignum) : Prop :=
  wf n ∧ (is_zero n = true → n.signbit = POSITIVE)

/-- Canonical operand: normal, with one digit of headroom (`lastdigit <= 126`). -/
def canonical (n : bignum) : Prop :=
  normal n ∧ n.lastdigit ≤ MAX_DIGITS - 2

instance (k : Nat) (x y : bignum) : Decidable (same_upto k x y) := by
  unfold same_upto; infer_instance

instance (n : bignum) : Decidable (loose n) := by unfold loose; infer_instance

instance (n : bignum) : Decidable (wf n) := by unfold wf; infer_instance

instance (n : bignum) : Decidable (normal n) := by unfold normal; infer_instance

instance (n : bignum) : Decidable (canonical n) := by unfold canonical; infer_instance

/-! ## Buffer reads and writes -/

theorem length_wr (ds : List Int) (i : Nat) (v : Int) : (wr ds i v).length = ds.length := by
  simp [wr]

theorem rd_wr_eq (ds : List Int) (i : Nat) (v : Int) (h : i < ds.length) :
    rd (wr ds i v) i = v := by
  simp [rd, wr, List.getD_eq_getElem?_getD, List.getElem?_set, h]

theorem rd_wr_ne (ds : List Int) (i j : Nat) (v : Int) (h : i ≠ j) :
    rd (wr ds i v) j = rd ds j := by
  simp [rd, wr, List.getD_eq_getElem?_getD, List.getElem?_set, h]

theorem rd_replicate (n i : Nat) : rd (List.replicate n (0 : Int)) i = 0 := by
  simp only [rd, List.getD_eq_getElem?_getD, List.getElem?_replicate]
  split <;> rfl

theorem rd_of_length_le (ds : List Int) (i : Nat) (h : ds.length ≤ i) : rd ds i = 0 := by
  simp [rd, List.getD_eq_getElem?_getD, List.getElem?_eq_none h]

theorem list_ext_rd (l1 l2 : List Int) (hl : l1.length = l2.length)
    (h : ∀ i, i < l1.length → rd l1 i = rd l2 i) : l1 = l2 := by
  apply List.ext_getElem hl
  intro i h1 h2
  have := h i h1
  simpa [rd, List.getD_eq_getElem?_getD, List.getElem?_eq_getElem h1,
    List.getElem?_eq_getElem h2] using this

theorem initialize_bignum_eq :
    initialize_bignum = { digits := List.replicate MAX_DIGITS 0, signbit := POSITIVE, lastdigit := 0 } := by
  decide

/-! ## Magnitudes -/

theorem mag_congr (a b : List Int) (k : Nat) (h : ∀ j, j < k → rd a j = rd b j) :
    mag a k = mag b k := by
  induction k with
  | zero => rfl
  | succ k ih =>
    simp only [mag]
    rw [ih (fun j hj => h j (Nat.lt_succ_of_lt hj)), h k (Nat.lt_succ_self k)]

theorem mag_wr_ge (ds : List Int) (i k : Nat) (v : Int) (h : k ≤ i) :
    mag (wr ds i v) k = mag ds k := by
  apply mag_congr
  intro j hj
  exact rd_wr_ne ds i j v (by omega)

theorem mag_nonneg (ds : List Int) (k : Nat) (h : ∀ j, j < k → 0 ≤ rd ds j) :
    0 ≤ mag ds k := by
  induction k with
  | zero => simp [mag]
  | succ k ih =>
    simp only [mag]
    have h1 := ih (fun j hj => h j (Nat.lt_succ_of_lt hj))
    have h2 := h k (Nat.lt_succ_self k)
    positivity

theorem mag_lt (ds : List Int) (k : Nat) (h : ∀ j, j < k → rd ds j ≤ 9) :
    mag ds k < 10 ^ k := by
  induction k with
  | zero => simp [mag]
  | succ k ih =>
    simp only [mag]
    have h1 := ih (fun j hj => h j (Nat.lt_succ_of_lt hj))
    have h2 := h k (Nat.lt_succ_self k)
    have h3 : (0 : Int) < 10 ^ k := by positivity
    have h4 : rd ds k * 10 ^ k ≤ 9 * 10 ^ k := by nlinarith
    rw [pow_succ]
    linarith

theorem mag_zeros (ds : List Int) (k n : Nat) (h : ∀ j, k ≤ j → j < k + n → rd ds j = 0) :
    mag ds (k + n) = mag ds k := by
  induction n with
  | zero => rfl
  | succ n ih =>
    rw [← Nat.add_assoc]
    simp only [mag]
    rw [ih (fun j h1 h2 => h j h1 (by omega)), h (k + n) (by omega) (by omega)]
    simp

theorem mag_zeros_le (ds : List Int) (k m : Nat) (hkm : k ≤ m)
    (h : ∀ j, k ≤ j → j < m → rd ds j = 0) : mag ds m = mag ds k := by
  obtain ⟨n, rfl⟩ := Nat.exists_eq_add_of_le hkm
  exact mag_zeros ds k n h

theorem mag_top_le (ds : List Int) (l : Nat) (h : ∀ j, j < l → 0 ≤ rd ds j)
    (ht : 1 ≤ rd ds l) : 10 ^ l ≤ mag ds (l + 1) := by
  simp only [mag]
  have h1 := mag_nonneg ds l h
  have h3 : (0 : Int) < 10 ^ l := by positivity
  nlinarith

/-- The digit at position `i` is recovered from the magnitude. -/
theorem rd_eq_of_mag (ds : List Int) (k : Nat)
    (h : ∀ j, j < k → 0 ≤ rd ds j ∧ rd ds j ≤ 9) (i : Nat) (hi : i < k) :
    rd ds i = mag ds k / 10 ^ i % 10 := by
  induction k with
  | zero => omega
  | succ k ih =>
    have hk : ∀ j, j < k → 0 ≤ rd ds j ∧ rd ds j ≤ 9 := fun j hj => h j (Nat.lt_succ_of_lt hj)
    simp only [mag]
    rcases Nat.lt_succ_iff_lt_or_eq.mp hi with h1 | h1
    · rw [ih hk h1]
      obtain ⟨n, rfl⟩ : ∃ n, k = i + 1 + n := ⟨k - (i + 1), by omega⟩
      have e : rd ds (i + 1 + n) * 10 ^ (i + 1 + n) = 10 ^ i * (10 * (rd ds (i + 1 + n) * 10 ^ n)) := by
        ring
      rw [e, Int.add_mul_ediv_left _ _ (by positivity), Int.add_mul_emod_self_left]
    · subst h1
      have h0 := mag_nonneg ds i (fun j hj => (hk j hj).1)
      have h2 := mag_lt ds i (fun j hj => (hk j hj).2)
      rw [Int.add_mul_ediv_right _ _ (by positivity), Int.ediv_eq_zero_of_lt h0 h2]
      have := h i hi
      omega

theorem mag_inj (a b : List Int) (k : Nat) (hl : a.length = b.length)
    (ha : ∀ j, j < k → 0 ≤ rd a j ∧ rd a j ≤ 9) (hb : ∀ j, j < k → 0 ≤ rd b j ∧ rd b j ≤ 9)
    (hk : a.length ≤ k) (h : mag a k = mag b k) : a = b := by
  apply list_ext_rd a b hl
  intro i hi
  rw [rd_eq_of_mag a k ha i (by omega), rd_eq_of_mag b k hb i (by omega), h]

/-! ## Normalisation -/

theorem strip_le (ds : List Int) (l : Nat) : strip ds l ≤ l := by
  induction l with
  | zero => simp [strip]
  | succ l ih =>
    simp only [strip]
    split <;> omega

theorem strip_zeros (ds : List Int) (l : Nat) :
    ∀ j, strip ds l < j → j ≤ l → rd ds j = 0 := by
  induction l with
  | zero => intro j h1 h2; omega
  | succ l ih =>
    intro j h1 h2
    simp only [strip] at h1
    split at h1
    · rcases Nat.lt_or_ge l j with h3 | h3
      · have : j = l + 1 := by omega
        subst this; assumption
      · exact ih j h1 h3
    · omega

theorem strip_top (ds : List Int) (l : Nat) : strip ds l = 0 ∨ rd ds (strip ds l) ≠ 0 := by
  induction l with
  | zero => left; rfl
  | succ l ih =>
    simp only [strip]
    split
    · exact ih
    · right; assumption

theorem zero_justify_digits (n : bignum) : (zero_justify n).digits = n.digits := by
  unfold zero_justify
  dsimp only
  split <;> rfl

theorem zero_justify_lastdigit (n : bignum) :
    (zero_justify n).lastdigit = strip n.digits n.lastdigit := by
  unfold zero_justify
  dsimp only
  split <;> rfl

theorem is_zero_iff (n : bignum) : is_zero n = true ↔ n.lastdigit = 0 ∧ rd n.digits 0 = 0 := by
  simp [is_zero]

theorem is_one_iff (n : bignum) : is_one n = true ↔ n.lastdigit = 0 ∧ rd n.digits 0 = 1 := by
  simp [is_one]

theorem zero_justify_signbit (n : bignum) :
    (zero_justify n).signbit =
      if strip n.digits n.lastdigit = 0 ∧ rd n.digits 0 = 0 then POSITIVE else n.signbit := by
  unfold zero_justify
  dsimp only
  by_cases h : strip n.digits n.lastdigit = 0 ∧ rd n.digits 0 = 0
  · rw [if_pos h, if_pos ((is_zero_iff _).2 h)]
  · rw [if_neg h, if_neg (fun h1 => h ((is_zero_iff _).1 h1))]

theorem magnitude_zero_justify (n : bignum) :
    magnitude (zero_justify n) = magnitude n := by
  unfold magnitude
  rw [zero_justify_digits, zero_justify_lastdigit]
  symm
  apply mag_zeros_le _ _ _ (by have := strip_le n.digits n.lastdigit; omega)
  intro j h1 h2
  exact strip_zeros n.digits n.lastdigit j (by omega) (by omega)

theorem magnitude_of_is_zero (n : bignum) (h : is_zero n = true) : magnitude n = 0 := by
  obtain ⟨h1, h2⟩ := (is_zero_iff n).1 h
  simp [magnitude, h1, mag, h2]

theorem value_zero_justify (n : bignum) : value (zero_justify n) = value n := by
  unfold value
  rw [magnitude_zero_justify, zero_justify_signbit]
  split
  · rename_i h
    have : magnitude (zero_justify n) = 0 := by
      apply magnitude_of_is_zero
      rw [is_zero_iff, zero_justify_digits, zero_justify_lastdigit]
      exact h
    rw [magnitude_zero_justify] at this
    simp [this]
  · rfl

theorem zero_justify_lastdigit_le (n : bignum) : (zero_justify n).lastdigit ≤ n.lastdigit := by
  rw [zero_justify_lastdigit]; exact strip_le _ _

theorem normal_zero_justify (n : bignum) (h : loose n) : normal (zero_justify n) := by
  obtain ⟨h1, h2, h3, h4, h5⟩ := h
  have hle := strip_le n.digits n.lastdigit
  refine ⟨⟨⟨?_, ?_, ?_, ?_, ?_⟩, ?_⟩, ?_⟩
  · rw [zero_justify_digits]; exact h1
  · rw [zero_justify_signbit]; split
    · left; rfl
    · exact h2
  · rw [zero_justify_lastdigit]; omega
  · rw [zero_justify_digits]; exact h4
  · rw [zero_justify_digits, zero_justify_lastdigit]
    intro i hi hlt
    rcases Nat.lt_or_ge n.lastdigit i with h6 | h6
    · exact h5 i hi h6
    · exact strip_zeros n.digits n.lastdigit i hlt h6
  · rw [zero_justify_digits, zero_justify_lastdigit]; exact strip_top _ _
  · intro hz
    rw [is_zero_iff, zero_justify_digits, zero_justify_lastdigit] at hz
    rw [zero_justify_signbit, if_pos hz]

/-! ## Well-formed bignums as integers -/

theorem magnitude_nonneg (n : bignum) (h : loose n) : 0 ≤ magnitude n := by
  obtain ⟨_, _, h3, h4, _⟩ := h
  exact mag_nonneg _ _ (fun j hj => (h4 j (by omega)).1)

theorem magnitude_lt (n : bignum) (h : loose n) : magnitude n < 10 ^ (n.lastdigit + 1) := by
  obtain ⟨_, _, h3, h4, _⟩ := h
  exact mag_lt _ _ (fun j hj => (h4 j (by omega)).2)

theorem magnitude_eq_mag (n : bignum) (h : loose n) (k : Nat) (h1 : n.lastdigit < k)
    (h2 : k ≤ MAX_DIGITS) : magnitude n = mag n.digits k := by
  obtain ⟨_, _, h3, h4, h5⟩ := h
  symm
  apply mag_zeros_le _ _ _ (by omega)
  intro j hj1 hj2
  exact h5 j (by omega) (by omega)

theorem magnitude_ge (n : bignum) (h : wf n) (h0 : n.lastdigit ≠ 0) :
    10 ^ n.lastdigit ≤ magnitude n := by
  obtain ⟨⟨_, _, h3, h4, _⟩, h6⟩ := h
  apply mag_top_le _ _ (fun j hj => (h4 j (by omega)).1)
  rcases h6 with h6 | h6
  · exact absurd h6 h0
  · have := (h4 n.lastdigit h3).1
    omega

theorem magnitude_eq_zero_iff (n : bignum) (h : wf n) : magnitude n = 0 ↔ is_zero n = true := by
  constructor
  · intro hm
    rw [is_zero_iff]
    by_cases h0 : n.lastdigit = 0
    · refine ⟨h0, ?_⟩
      simpa [magnitude, h0, mag] using hm
    · have := magnitude_ge n h h0
      have : (0 : Int) < 10 ^ n.lastdigit := by positivity
      omega
  · exact magnitude_of_is_zero n

theorem lastdigit_le_iff (n : bignum) (h : wf n) (k : Nat) :
    n.lastdigit ≤ k ↔ magnitude n < 10 ^ (k + 1) := by
  constructor
  · intro hk
    have h1 := magnitude_lt n h.1
    have h2 : (10 : Int) ^ (n.lastdigit + 1) ≤ 10 ^ (k + 1) :=
      pow_le_pow_right₀ (by norm_num) (by omega)
    omega
  · intro hm
    by_contra hk
    have h1 := magnitude_ge n h (by omega)
    have h2 : (10 : Int) ^ (k + 1) ≤ 10 ^ n.lastdigit :=
      pow_le_pow_right₀ (by norm_num) (by omega)
    omega

theorem wf_ext (a b : bignum) (ha : wf a) (hb : wf b) (hs : a.signbit = b.signbit)
    (hm : magnitude a = magnitude b) : a = b := by
  have hl : a.lastdigit = b.lastdigit := by
    apply Nat.le_antisymm
    · rw [lastdigit_le_iff a ha, hm]; exact magnitude_lt b hb.1
    · rw [lastdigit_le_iff b hb, ← hm]; exact magnitude_lt a ha.1
  have hd : a.digits = b.digits := by
    have ea := magnitude_eq_mag a ha.1 MAX_DIGITS ha.1.2.2.1 (le_refl _)
    have eb := magnitude_eq_mag b hb.1 MAX_DIGITS hb.1.2.2.1 (le_refl _)
    apply mag_inj a.digits b.digits MAX_DIGITS (by rw [ha.1.1, hb.1.1]) ha.1.2.2.2.1
      hb.1.2.2.2.1 (by rw [ha.1.1])
    rw [← ea, ← eb, hm]
  cases a; cases b
  simp only [bignum.mk.injEq]
  exact ⟨hd, hs, hl⟩

theorem value_eq_zero_iff (n : bignum) (h : loose n) : value n = 0 ↔ magnitude n = 0 := by
  unfold value
  rcases h.2.1 with hs | hs <;> rw [hs] <;> simp [POSITIVE, NEGATIVE]

theorem natAbs_value (n : bignum) (h : loose n) : |value n| = magnitude n := by
  have h0 := magnitude_nonneg n h
  unfold value
  rcases h.2.1 with hs | hs <;> rw [hs] <;> simp [POSITIVE, NEGATIVE, abs_of_nonneg h0]

/-- A normal bignum is determined by the integer it denotes. -/
theorem normal_ext (a b : bignum) (ha : normal a) (hb : normal b) (h : value a = value b) :
    a = b := by
  have hm : magnitude a = magnitude b := by
    rw [← natAbs_value a ha.1.1, ← natAbs_value b hb.1.1, h]
  apply wf_ext a b ha.1 hb.1 _ hm
  by_cases hz : magnitude a = 0
  · have hza := (magnitude_eq_zero_iff a ha.1).1 hz
    have hzb := (magnitude_eq_zero_iff b hb.1).1 (hm ▸ hz)
    rw [ha.2 hza, hb.2 hzb]
  · have h0 := magnitude_nonneg a ha.1.1
    have hpos : 0 < magnitude a := lt_of_le_of_ne h0 (Ne.symm hz)
    unfold value at h
    rw [← hm] at h
    rcases ha.1.1.2.1 with hs | hs <;> rcases hb.1.1.2.1 with ht | ht <;>
      rw [hs, ht] at h ⊢ <;> simp only [POSITIVE, NEGATIVE] at h ⊢ <;> omega

/-! ## Comparison -/

theorem cmp_loop_spec (a b : List Int) (s : Int) (k : Nat)
    (ha : ∀ j, j < k → 0 ≤ rd a j ∧ rd a j ≤ 9) (hb : ∀ j, j < k → 0 ≤ rd b j ∧ rd b j ≤ 9) :
    cmp_loop a b s k =
      if mag a k > mag b k then POSITIVE * s
      else if mag a k < mag b k then NEGATIVE * s else 0 := by
  induction k with
  | zero => simp [cmp_loop, mag]
  | succ k ih =>
    have ha1 : ∀ j, j < k → 0 ≤ rd a j ∧ rd a j ≤ 9 := fun j hj => ha j (Nat.lt_succ_of_lt hj)
    have hb1 : ∀ j, j < k → 0 ≤ rd b j ∧ rd b j ≤ 9 := fun j hj => hb j (Nat.lt_succ_of_lt hj)
    have a0 := mag_nonneg a k (fun j hj => (ha1 j hj).1)
    have b0 := mag_nonneg b k (fun j hj => (hb1 j hj).1)
    have a1 := mag_lt a k (fun j hj => (ha1 j hj).2)
    have b1 := mag_lt b k (fun j hj => (hb1 j hj).2)
    have hp : (0 : Int) < 10 ^ k := by positivity
    simp only [cmp_loop, mag]
    by_cases h1 : rd a k > rd b k
    · have : mag a k + rd a k * 10 ^ k > mag b k + rd b k * 10 ^ k := by nlinarith
      rw [if_pos h1, if_pos this]
    · rw [if_neg h1]
      by_cases h2 : rd a k < rd b k
      · have h3 : mag a k + rd a k * 10 ^ k < mag b k + rd b k * 10 ^ k := by nlinarith
        rw [if_pos h2, if_neg (by omega), if_pos h3]
      · have e : rd a k = rd b k := by omega
        rw [if_neg h2, ih ha1 hb1]
        simp only [e, gt_iff_lt, add_lt_add_iff_right]

theorem compare_same_sign (a b : bignum) (ha : wf a) (hb : wf b) (hs : a.signbit = b.signbit) :
    compare_bignum a b =
      if magnitude a > magnitude b then POSITIVE * a.signbit
      else if magnitude a < magnitude b then NEGATIVE * a.signbit else 0 := by
  unfold compare_bignum
  dsimp only
  rw [if_neg (by simpa using hs)]
  have la := magnitude_lt a ha.1
  have lb := magnitude_lt b hb.1
  by_cases h1 : a.lastdigit > b.lastdigit
  · have g := magnitude_ge a ha (by omega)
    have : (10 : Int) ^ (b.lastdigit + 1) ≤ 10 ^ a.lastdigit :=
      pow_le_pow_right₀ (by norm_num) (by omega)
    rw [if_pos h1, if_pos (by omega)]
  · rw [if_neg h1]
    by_cases h2 : a.lastdigit < b.lastdigit
    · have g := magnitude_ge b hb (by omega)
      have : (10 : Int) ^ (a.lastdigit + 1) ≤ 10 ^ b.lastdigit :=
        pow_le_pow_right₀ (by norm_num) (by omega)
      rw [if_pos h2, if_neg (by omega), if_pos (by omega)]
    · rw [if_neg h2]
      have e : a.lastdigit = b.lastdigit := by omega
      have hA := ha.1.2.2.1
      rw [cmp_loop_spec a.digits b.digits a.signbit (a.lastdigit + 1)
        (fun j hj => ha.1.2.2.2.1 j (by omega))
        (fun j hj => hb.1.2.2.2.1 j (by omega))]
      unfold magnitude
      rw [e]

/-! ## The digit loops of addition and subtraction -/

theorem add_loop_spec (a b : List Int) (n : Nat) :
    ∀ (i : Nat) (c : Int) (r : List Int), i + n ≤ r.length → 0 ≤ c → c ≤ 1 →
      (∀ j, j < i + n → 0 ≤ rd a j ∧ rd a j ≤ 9) →
      (∀ j, j < i + n → 0 ≤ rd b j ∧ rd b j ≤ 9) →
      (add_loop a b n i c r).1.length = r.length ∧
      0 ≤ (add_loop a b n i c r).2 ∧ (add_loop a b n i c r).2 ≤ 1 ∧
      (∀ j, j < i → rd (add_loop a b n i c r).1 j = rd r j) ∧
      (∀ j, i + n ≤ j → rd (add_loop a b n i c r).1 j = rd r j) ∧
      (∀ j, i ≤ j → j < i + n →
        0 ≤ rd (add_loop a b n i c r).1 j ∧ rd (add_loop a b n i c r).1 j ≤ 9) ∧
      mag (add_loop a b n i c r).1 (i + n) + (add_loop a b n i c r).2 * 10 ^ (i + n) =
        mag r i + c * 10 ^ i + (mag a (i + n) - mag a i) + (mag b (i + n) - mag b i) := by
  induction n with
  | zero =>
    intro i c r _ h0 h1 _ _
    refine ⟨rfl, h0, h1, fun _ _ => rfl, fun _ _ => rfl, fun j h2 h3 => by omega, ?_⟩
    simp only [add_loop, Nat.add_zero]
    ring
  | succ n ih =>
    intro i c r hlen h0 h1 ha hb
    have hai := ha i (by omega)
    have hbi := hb i (by omega)
    have ht0 : 0 ≤ c + rd a i + rd b i := by omega
    have etm : (c + rd a i + rd b i).tmod 10 = (c + rd a i + rd b i) % 10 :=
      Int.tmod_eq_emod ht0 (by norm_num)
    have etd : (c + rd a i + rd b i).tdiv 10 = (c + rd a i + rd b i) / 10 :=
      Int.tdiv_eq_ediv ht0 (by norm_num)
    simp only [add_loop]
    rw [etm, etd]
    have key := ih (i + 1) ((c + rd a i + rd b i) / 10) (wr r i ((c + rd a i + rd b i) % 10))
      (by rw [length_wr]; omega) (by omega) (by omega)
      (fun j hj => ha j (by omega)) (fun j hj => hb j (by omega))
    obtain ⟨k1, k2, k3, k4, k5, k6, k7⟩ := key
    have e1 : i + 1 + n = i + (n + 1) := by omega
    rw [e1] at k5 k6 k7
    refine ⟨by rw [k1, length_wr], k2, k3, ?_, ?_, ?_, ?_⟩
    · intro j hj
      rw [k4 j (by omega), rd_wr_ne _ _ _ _ (by omega)]
    · intro j hj
      rw [k5 j hj, rd_wr_ne _ _ _ _ (by omega)]
    · intro j h2 h3
      rcases Nat.eq_or_lt_of_le h2 with h4 | h4
      · subst h4
        rw [k4 i (by omega), rd_wr_eq _ _ _ (by omega)]
        omega
      · exact k6 j (by omega) h3
    · rw [k7]
      simp only [mag]
      rw [mag_wr_ge _ _ _ _ (le_refl i), rd_wr_eq _ _ _ (by omega)]
      have e2 : (c + rd a i + rd b i) % 10 + 10 * ((c + rd a i + rd b i) / 10)
          = c + rd a i + rd b i := Int.emod_add_ediv _ _
      have e3 : (c + rd a i + rd b i) % 10 = c + rd a i + rd b i
          - 10 * ((c + rd a i + rd b i) / 10) := by omega
      rw [e3, pow_succ]
      ring

theorem sub_loop_spec (a b : List Int) (n : Nat) :
    ∀ (i : Nat) (c : Int) (r : List Int), i + n ≤ r.length → 0 ≤ c → c ≤ 1 →
      (∀ j, j < i + n → 0 ≤ rd a j ∧ rd a j ≤ 9) →
      (∀ j, j < i + n → 0 ≤ rd b j ∧ rd b j ≤ 9) →
      (sub_loop a b n i c r).1.length = r.length ∧
      0 ≤ (sub_loop a b n i c r).2 ∧ (sub_loop a b n i c r).2 ≤ 1 ∧
      (∀ j, j < i → rd (sub_loop a b n i c r).1 j = rd r j) ∧
      (∀ j, i + n ≤ j → rd (sub_loop a b n i c r).1 j = rd r j) ∧
      (∀ j, i ≤ j → j < i + n →
        0 ≤ rd (sub_loop a b n i c r).1 j ∧ rd (sub_loop a b n i c r).1 j ≤ 9) ∧
      mag (sub_loop a b n i c r).1 (i + n) - (sub_loop a b n i c r).2 * 10 ^ (i + n) =
        mag r i - c * 10 ^ i + (mag a (i + n) - mag a i) - (mag b (i + n) - mag b i) := by
  induction n with
  | zero =>
    intro i c r _ h0 h1 _ _
    refine ⟨rfl, h0, h1, fun _ _ => rfl, fun _ _ => rfl, fun j h2 h3 => by omega, ?_⟩
    simp only [sub_loop, Nat.add_zero]
    ring
  | succ n ih =>
    intro i c r hlen h0 h1 ha hb
    have hai := ha i (by omega)
    have hbi := hb i (by omega)
    simp only [sub_loop]
    have hq : ∃ d w : Int, (if rd a i - rd b i - c < 0 then rd a i - rd b i - c + 10
          else rd a i - rd b i - c) = d ∧ (if rd a i - rd b i - c < 0 then (1 : Int) else 0) = w ∧
        0 ≤ d ∧ d ≤ 9 ∧ 0 ≤ w ∧ w ≤ 1 ∧ d - 10 * w = rd a i - rd b i - c := by
      by_cases h : rd a i - rd b i - c < 0
      · rw [if_pos h, if_pos h]
        exact ⟨_, _, rfl, rfl, by omega, by omega, by omega, by omega, by omega⟩
      · rw [if_neg h, if_neg h]
        exact ⟨_, _, rfl, rfl, by omega, by omega, by omega, by omega, by omega⟩
    obtain ⟨d, w, hd, hw, d0, d9, w0, w1, hdw⟩ := hq
    rw [hd, hw]
    have etm : d.tmod 10 = d := by
      rw [Int.tmod_eq_emod d0 (by norm_num)]; omega
    rw [etm]
    have key := ih (i + 1) w (wr r i d)
      (by rw [length_wr]; omega) w0 w1
      (fun j hj => ha j (by omega)) (fun j hj => hb j (by omega))
    obtain ⟨k1, k2, k3, k4, k5, k6, k7⟩ := key
    have e1 : i + 1 + n = i + (n + 1) := by omega
    rw [e1] at k5 k6 k7
    refine ⟨by rw [k1, length_wr], k2, k3, ?_, ?_, ?_, ?_⟩
    · intro j hj
      rw [k4 j (by omega), rd_wr_ne _ _ _ _ (by omega)]
    · intro j hj
      rw [k5 j hj, rd_wr_ne _ _ _ _ (by omega)]
    · intro j h2 h3
      rcases Nat.eq_or_lt_of_le h2 with h4 | h4
      · subst h4
        rw [k4 i (by omega), rd_wr_eq _ _ _ (by omega)]
        omega
      · exact k6 j (by omega) h3
    · rw [k7]
      simp only [mag]
      rw [mag_wr_ge _ _ _ _ (le_refl i), rd_wr_eq _ _ _ (by omega)]
      have e3 : d = rd a i - rd b i - c + 10 * w := by omega
      rw [e3, pow_succ]
      ring

/-! ## Addition and subtraction -/

theorem add_bignum_same (f : Nat) (a b : bignum) (hs : a.signbit = b.signbit) :
    add_bignum (f + 1) a b =
      some (zero_justify
        { digits := (add_loop a.digits b.digits (max a.lastdigit b.lastdigit + 1 + 1) 0 0
            (List.replicate MAX_DIGITS 0)).1
          signbit := a.signbit
          lastdigit := max a.lastdigit b.lastdigit + 1 }, a, b) := by
  rw [add_bignum]
  simp only [hs, if_true, initialize_bignum_eq]

theorem sub_bignum_direct (f : Nat) (a b : bignum) (h1 : a.signbit ≠ NEGATIVE)
    (h2 : b.signbit ≠ NEGATIVE) (h3 : compare_bignum a b ≠ NEGATIVE) :
    sub_bignum (f + 1) a b =
      some (zero_justify
        { digits := (sub_loop a.digits b.digits (max a.lastdigit b.lastdigit + 1) 0 0
            (List.replicate MAX_DIGITS 0)).1
          signbit := POSITIVE
          lastdigit := max a.lastdigit b.lastdigit }, a, b) := by
  rw [sub_bignum]
  simp only [h1, h2, h3, or_self, if_false, initialize_bignum_eq]

theorem add_same_spec (f : Nat) (a b : bignum) (ha : loose a) (hb : loose b)
    (hs : a.signbit = b.signbit) (hla : a.lastdigit ≤ MAX_DIGITS - 2)
    (hlb : b.lastdigit ≤ MAX_DIGITS - 2) :
    ∃ r, add_bignum (f + 1) a b = some (r, a, b) ∧ normal r ∧
      value r = value a + value b := by
  refine ⟨_, add_bignum_same f a b hs, ?_, ?_⟩
  all_goals
    obtain ⟨a1, a2, a3, a4, a5⟩ := ha
    obtain ⟨b1, b2, b3, b4, b5⟩ := hb
    simp only [MAX_DIGITS] at hla hlb a3 b3 a4 b4 a5 b5
    have hlen : max a.lastdigit b.lastdigit + 1 + 1 ≤ 128 := by omega
    obtain ⟨k1, k2, k3, _, k5, k6, k7⟩ :=
      add_loop_spec a.digits b.digits (max a.lastdigit b.lastdigit + 1 + 1) 0 0
        (List.replicate MAX_DIGITS 0) (by simp [MAX_DIGITS]; omega) (le_refl _) (by norm_num)
        (fun j hj => a4 j (by omega)) (fun j hj => b4 j (by omega))
    simp only [Nat.zero_add] at k5 k6 k7
  · apply normal_zero_justify
    refine ⟨?_, a2, ?_, ?_, ?_⟩
    · simpa using k1
    · simp only [MAX_DIGITS]; omega
    · intro i hi
      simp only
      rcases Nat.lt_or_ge i (max a.lastdigit b.lastdigit + 1 + 1) with h | h
      · exact k6 i (Nat.zero_le _) h
      · rw [k5 i h, rd_replicate]; omega
    · intro i hi hlt
      simp only at hlt ⊢
      rw [k5 i (by omega), rd_replicate]
  · rw [value_zero_justify]
    have ea := magnitude_eq_mag a ⟨a1, a2, a3, a4, a5⟩
      (max a.lastdigit b.lastdigit + 1 + 1) (by omega) (by simp only [MAX_DIGITS]; omega)
    have eb := magnitude_eq_mag b ⟨b1, b2, b3, b4, b5⟩
      (max a.lastdigit b.lastdigit + 1 + 1) (by omega) (by simp only [MAX_DIGITS]; omega)
    have la := magnitude_lt a ⟨a1, a2, a3, a4, a5⟩
    have lb := magnitude_lt b ⟨b1, b2, b3, b4, b5⟩
    have pa : (10 : Int) ^ (a.lastdigit + 1) ≤ 10 ^ (max a.lastdigit b.lastdigit + 1) :=
      pow_le_pow_right₀ (by norm_num) (by omega)
    have pb : (10 : Int) ^ (b.lastdigit + 1) ≤ 10 ^ (max a.lastdigit b.lastdigit + 1) :=
      pow_le_pow_right₀ (by norm_num) (by omega)
    have hr0 := mag_nonneg _ (max a.lastdigit b.lastdigit + 1 + 1)
      (fun j hj => (k6 j (Nat.zero_le _) hj).1)
    have m0 : ∀ ds : List Int, mag ds 0 = 0 := fun _ => rfl
    simp only [m0, zero_mul, add_zero, sub_zero, zero_add] at k7
    rw [← ea, ← eb] at k7
    have hp : (0 : Int) < 10 ^ (max a.lastdigit b.lastdigit + 1) := by positivity
    rw [pow_succ] at k7
    have hc : (add_loop a.digits b.digits (max a.lastdigit b.lastdigit + 1 + 1) 0 0
        (List.replicate MAX_DIGITS 0)).2 = 0 := by
      by_contra hne
      have : 1 ≤ (add_loop a.digits b.digits (max a.lastdigit b.lastdigit + 1 + 1) 0 0
        (List.replicate MAX_DIGITS 0)).2 := by omega
      nlinarith
    rw [hc] at k7
    simp only [value, ← hs]
    have e : magnitude
        { digits := (add_loop a.digits b.digits (max a.lastdigit b.lastdigit + 1 + 1) 0 0
            (List.replicate MAX_DIGITS 0)).1
          signbit := a.signbit
          lastdigit := max a.lastdigit b.lastdigit + 1 } = magnitude a + magnitude b := by
      simp only [magnitude]
      unfold magnitude at k7
      linear_combination k7
    rw [e]; ring

theorem sub_direct_spec (f : Nat) (a b : bignum) (ha : loose a) (hb : loose b)
    (h1 : a.signbit = POSITIVE) (h2 : b.signbit = POSITIVE)
    (h3 : compare_bignum a b ≠ NEGATIVE) (hm : magnitude b ≤ magnitude a) :
    ∃ r, sub_bignum (f + 1) a b = some (r, a, b) ∧ normal r ∧
      value r = value a - value b := by
  refine ⟨_, sub_bignum_direct f a b (by rw [h1]; decide) (by rw [h2]; decide) h3, ?_, ?_⟩
  all_goals
    obtain ⟨a1, a2, a3, a4, a5⟩ := ha
    obtain ⟨b1, b2, b3, b4, b5⟩ := hb
    simp only [MAX_DIGITS] at a3 b3 a4 b4 a5 b5
    have hlen : max a.lastdigit b.lastdigit + 1 ≤ 128 := by omega
    obtain ⟨k1, k2, k3, _, k5, k6, k7⟩ :=
      sub_loop_spec a.digits b.digits (max a.lastdigit b.lastdigit + 1) 0 0
        (List.replicate MAX_DIGITS 0) (by simp [MAX_DIGITS]; omega) (le_refl _) (by norm_num)
        (fun j hj => a4 j (by omega)) (fun j hj => b4 j (by omega))
    simp only [Nat.zero_add] at k5 k6 k7
  · apply normal_zero_justify
    refine ⟨?_, Or.inl rfl, ?_, ?_, ?_⟩
    · simpa using k1
    · simp only [MAX_DIGITS]; omega
    · intro i hi
      simp only
      rcases Nat.lt_or_ge i (max a.lastdigit b.lastdigit + 1) with h | h
      · exact k6 i (Nat.zero_le _) h
      · rw [k5 i h, rd_replicate]; omega
    · intro i hi hlt
      simp only at hlt ⊢
      rw [k5 i (by omega), rd_replicate]
  · rw [value_zero_justify]
    have ea := magnitude_eq_mag a ⟨a1, a2, a3, a4, a5⟩
      (max a.lastdigit b.lastdigit + 1) (by omega) (by simp only [MAX_DIGITS]; omega)
    have eb := magnitude_eq_mag b ⟨b1, b2, b3, b4, b5⟩
      (max a.lastdigit b.lastdigit + 1) (by omega) (by simp only [MAX_DIGITS]; omega)
    have hr1 := mag_lt _ (max a.lastdigit b.lastdigit + 1)
      (fun j hj => (k6 j (Nat.zero_le _) hj).2)
    have m0 : ∀ ds : List Int, mag ds 0 = 0 := fun _ => rfl
    simp only [m0, zero_mul, add_zero, sub_zero, zero_add] at k7
    rw [← ea, ← eb] at k7
    have hp : (0 : Int) < 10 ^ (max a.lastdigit b.lastdigit + 1) := by positivity
    have hc : (sub_loop a.digits b.digits (max a.lastdigit b.lastdigit + 1) 0 0
        (List.replicate MAX_DIGITS 0)).2 = 0 := by
      by_contra hne
      have : 1 ≤ (sub_loop a.digits b.digits (max a.lastdigit b.lastdigit + 1) 0 0
        (List.replicate MAX_DIGITS 0)).2 := by omega
      nlinarith
    rw [hc] at k7
    simp only [value, h1, h2, POSITIVE]
    have e : magnitude
        { digits := (sub_loop a.digits b.digits (max a.lastdigit b.lastdigit + 1) 0 0
            (List.replicate MAX_DIGITS 0)).1
          signbit := 1
          lastdigit := max a.lastdigit b.lastdigit } = magnitude a - magnitude b := by
      simp only [magnitude]
      unfold magnitude at k7
      linear_combination k7
    rw [e]; ring

theorem wf_with_sign (n : bignum) (h : wf n) (s : Int) (hs : s = POSITIVE ∨ s = NEGATIVE) :
    wf { n with signbit := s } := by
  obtain ⟨⟨h1, _, h3, h4, h5⟩, h6⟩ := h
  exact ⟨⟨h1, hs, h3, h4, h5⟩, h6⟩

theorem magnitude_with_sign (n : bignum) (s : Int) :
    magnitude { n with signbit := s } = magnitude n := rfl

theorem value_with_sign (n : bignum) (s : Int) :
    value { n with signbit := s } = s * magnitude n := rfl

theorem value_pos_of_sign (n : bignum) (h : n.signbit = POSITIVE) : value n = magnitude n := by
  simp [value, h, POSITIVE]

theorem value_neg_of_sign (n : bignum) (h : n.signbit = NEGATIVE) : value n = -magnitude n := by
  simp [value, h, NEGATIVE]

theorem normal_negate (r : bignum) (h : normal r) (hp : 0 < value r) :
    normal { r with signbit := NEGATIVE } ∧ value { r with signbit := NEGATIVE } = -value r := by
  have hm : value r = magnitude r := by
    have h0 := magnitude_nonneg r h.1.1
    rcases h.1.1.2.1 with hs | hs
    · exact value_pos_of_sign r hs
    · rw [value_neg_of_sign r hs] at hp; omega
  refine ⟨⟨wf_with_sign r h.1 _ (Or.inr rfl), ?_⟩, ?_⟩
  · intro hz
    have : magnitude r = 0 := magnitude_of_is_zero _ hz
    omega
  · rw [value_with_sign, hm]; simp [NEGATIVE]

theorem sub_pos_spec (f : Nat) (a b : bignum) (ha : wf a) (hb : wf b)
    (h1 : a.signbit = POSITIVE) (h2 : b.signbit = POSITIVE) :
    ∃ r, sub_bignum (f + 2) a b = some (r, a, b) ∧ normal r ∧
      value r = value a - value b := by
  have hc := compare_same_sign a b ha hb (by rw [h1, h2])
  have hc2 := compare_same_sign b a hb ha (by rw [h1, h2])
  rw [h1] at hc
  rw [h2] at hc2
  by_cases hlt : magnitude a < magnitude b
  · rw [if_neg (by omega), if_pos hlt] at hc
    rw [if_pos (by omega)] at hc2
    obtain ⟨r, e, hn, hv⟩ := sub_direct_spec f b a hb.1 ha.1 h2 h1
      (by rw [hc2]; decide) (by omega)
    have hpos : 0 < value r := by
      rw [hv, value_pos_of_sign a h1, value_pos_of_sign b h2]; omega
    obtain ⟨n1, n2⟩ := normal_negate r hn hpos
    refine ⟨{ r with signbit := NEGATIVE }, ?_, n1, ?_⟩
    · rw [sub_bignum]
      simp only [h1, h2, hc, e]
      simp [POSITIVE, NEGATIVE]
    · rw [n2, hv]; ring
  · have h3 : compare_bignum a b ≠ NEGATIVE := by
      rw [hc, if_neg hlt]
      split <;> decide
    exact sub_direct_spec (f + 1) a b ha.1 hb.1 h1 h2 h3 (by omega)

theorem add_spec (f : Nat) (a b : bignum) (ha : wf a) (hb : wf b)
    (hcap : a.signbit = b.signbit →
      a.lastdigit ≤ MAX_DIGITS - 2 ∧ b.lastdigit ≤ MAX_DIGITS - 2) :
    ∃ r, add_bignum (f + 3) a b = some (r, a, b) ∧ normal r ∧
      value r = value a + value b := by
  by_cases hs : a.signbit = b.signbit
  · exact add_same_spec (f + 2) a b ha.1 hb.1 hs (hcap hs).1 (hcap hs).2
  · by_cases hn : a.signbit = NEGATIVE
    · have hbp : b.signbit = POSITIVE := by
        rcases hb.1.2.1 with h | h
        · exact h
        · rw [hn, h] at hs; exact absurd rfl hs
      obtain ⟨r, e, hnr, hv⟩ := sub_pos_spec f b { a with signbit := POSITIVE }
        hb (wf_with_sign a ha _ (Or.inl rfl)) hbp rfl
      refine ⟨r, ?_, hnr, ?_⟩
      · rw [add_bignum]
        have hs2 : ¬ (NEGATIVE = b.signbit) := by rw [← hn]; exact hs
        simp only [hn, hs2, if_false, if_true, e]
        have : ({ a with signbit := NEGATIVE } : bignum) = a := by
          cases a; simp only [bignum.mk.injEq, true_and, and_true]; exact hn.symm
        first
          | exact this
          | (simp only [Option.some.injEq, Prod.mk.injEq, and_true, true_and]; exact this)
      · rw [hv, value_with_sign a POSITIVE, value_neg_of_sign a hn]
        simp only [POSITIVE]; ring
    · have hap : a.signbit = POSITIVE := by
        rcases ha.1.2.1 with h | h
        · exact h
        · exact absurd h hn
      have hbn : b.signbit = NEGATIVE := by
        rcases hb.1.2.1 with h | h
        · rw [hap, h] at hs; exact absurd rfl hs
        · exact h
      obtain ⟨r, e, hnr, hv⟩ := sub_pos_spec f a { b with signbit := POSITIVE }
        ha (wf_with_sign b hb _ (Or.inl rfl)) hap rfl
      refine ⟨r, ?_, hnr, ?_⟩
      · rw [add_bignum]
        simp only [hs, hn, if_false, e]
        have : ({ b with signbit := NEGATIVE } : bignum) = b := by
          cases b; simp only [bignum.mk.injEq, true_and, and_true]; exact hbn.symm
        first
          | exact this
          | (simp only [Option.some.injEq, Prod.mk.injEq, and_true, true_and]; exact this)
      · rw [hv, value_with_sign b POSITIVE, value_neg_of_sign b hbn]
        simp only [POSITIVE]; ring

theorem sub_spec (f : Nat) (a b : bignum) (ha : wf a) (hb : wf b)
    (hcap : a.signbit ≠ b.signbit →
      a.lastdigit ≤ MAX_DIGITS - 2 ∧ b.lastdigit ≤ MAX_DIGITS - 2) :
    ∃ r, sub_bignum (f + 4) a b = some (r, a, b) ∧ normal r ∧
      value r = value a - value b := by
  by_cases hn : a.signbit = NEGATIVE ∨ b.signbit = NEGATIVE
  · have hflip : (-1 * b.signbit = POSITIVE ∨ -1 * b.signbit = NEGATIVE) := by
      rcases hb.1.2.1 with h | h <;> rw [h] <;> simp [POSITIVE, NEGATIVE]
    obtain ⟨r, e, hnr, hv⟩ := add_spec f a { b with signbit := -1 * b.signbit } ha
      (wf_with_sign b hb _ hflip) (by
        intro hs
        apply hcap
        intro hs2
        simp only at hs
        rw [hs2] at hs
        rcases hb.1.2.1 with h | h <;> rw [h] at hs <;> simp [POSITIVE, NEGATIVE] at hs)
    refine ⟨r, ?_, hnr, ?_⟩
    · rw [sub_bignum]
      simp only [hn, if_true, e]
      have : ({ b with signbit := -1 * (-1 * b.signbit) } : bignum) = b := by
        cases b; simp only [bignum.mk.injEq, true_and, and_true]; ring
      first
        | exact this
        | (simp only [Option.some.injEq, Prod.mk.injEq, and_true, true_and]; exact this)
    · rw [hv, value_with_sign b (-1 * b.signbit)]
      simp only [value]; ring
  · obtain ⟨h1, h2⟩ := not_or.mp hn
    have hap : a.signbit = POSITIVE := by
      rcases ha.1.2.1 with h | h
      · exact h
      · exact absurd h h1
    have hbp : b.signbit = POSITIVE := by
      rcases hb.1.2.1 with h | h
      · exact h
      · exact absurd h h2
    exact sub_pos_spec (f + 2) a b ha hb hap hbp

theorem value_neg_of_normal (n : bignum) (h : normal n) (hs : n.signbit = NEGATIVE) :
    value n < 0 := by
  have h0 := magnitude_nonneg n h.1.1
  have hne : magnitude n ≠ 0 := by
    intro hz
    have := h.2 ((magnitude_eq_zero_iff n h.1).1 hz)
    rw [hs] at this
    exact absurd this (by decide)
  rw [value_neg_of_sign n hs]
  omega

theorem value_nonneg_of_sign (n : bignum) (h : loose n) (hs : n.signbit = POSITIVE) :
    0 ≤ value n := by
  rw [value_pos_of_sign n hs]
  exact magnitude_nonneg n h

theorem sign_cases (n : bignum) (h : loose n) : n.signbit = POSITIVE ∨ n.signbit = NEGATIVE :=
  h.2.1

theorem canonical_of_normal (n : bignum) (h : normal n) (hm : |value n| < 10 ^ (MAX_DIGITS - 1)) :
    canonical n := by
  refine ⟨h, ?_⟩
  rw [lastdigit_le_iff n h.1, ← natAbs_value n h.1.1]
  exact hm

theorem abs_value_lt (n : bignum) (h : canonical n) : |value n| < 10 ^ (MAX_DIGITS - 1) := by
  have := (lastdigit_le_iff n h.1.1 (MAX_DIGITS - 2)).1 h.2
  rw [natAbs_value n h.1.1.1]
  exact this

/-! ## Conversion from a machine integer -/

theorem digits_getD (i : Nat) : ∀ t : Nat, (Nat.digits 10 t).getD i 0 = t / 10 ^ i % 10 := by
  induction i with
  | zero =>
    intro t
    rcases Nat.eq_zero_or_pos t with h | h
    · subst h; simp
    · rw [Nat.digits_def' (by norm_num) h]; simp
  | succ i ih =>
    intro t
    rcases Nat.eq_zero_or_pos t with h | h
    · subst h; simp
    · rw [Nat.digits_def' (by norm_num) h, List.getD_cons_succ, ih, pow_succ,
        Nat.div_div_eq_div_mul, Nat.mul_comm]

theorem digits_length_le (k : Nat) : ∀ t : Nat, t < 10 ^ k → (Nat.digits 10 t).length ≤ k := by
  induction k with
  | zero => intro t h; simp at h; subst h; simp
  | succ k ih =>
    intro t h
    rcases Nat.eq_zero_or_pos t with h0 | h0
    · subst h0; simp
    · rw [Nat.digits_def' (by norm_num) h0, List.length_cons]
      have := ih (t / 10) (by rw [pow_succ] at h; omega)
      omega

theorem peel_spec (f : Nat) :
    ∀ (t i j : Nat) (ds : List Int), t ≤ f → (i + 1) % 2 ^ 32 = j →
      j + (Nat.digits 10 t).length ≤ ds.length → ds.length < 2 ^ 32 →
      (peel f t i ds).1 = (if t = 0 then i else j + (Nat.digits 10 t).length - 1) ∧
      (peel f t i ds).2.length = ds.length ∧
      ∀ k, rd (peel f t i ds).2 k =
        if j ≤ k ∧ k < j + (Nat.digits 10 t).length then ((t / 10 ^ (k - j) % 10 : Nat) : Int)
        else rd ds k := by
  induction f with
  | zero =>
    intro t i j ds ht _ _ _
    have : t = 0 := by omega
    subst this
    refine ⟨by simp [peel], by simp [peel], fun k => ?_⟩
    rw [if_neg (by simp)]
    simp [peel]
  | succ f ih =>
    intro t i j ds ht hj hlen hds
    rcases Nat.eq_zero_or_pos t with h0 | h0
    · subst h0
      refine ⟨by simp [peel], by simp [peel], fun k => ?_⟩
      rw [if_neg (by simp)]
      simp [peel]
    · have hd := Nat.digits_def' (b := 10) (by norm_num) h0
      have hl : (Nat.digits 10 t).length = (Nat.digits 10 (t / 10)).length + 1 := by
        rw [hd, List.length_cons]
      simp only [peel, h0, if_true, gt_iff_lt, hj]
      have hj1 : (j + 1) % 2 ^ 32 = j + 1 := Nat.mod_eq_of_lt (by omega)
      obtain ⟨k1, k2, k3⟩ := ih (t / 10) j (j + 1) (wr ds j ((t % 10 : Nat) : Int)) (by omega)
        hj1 (by rw [length_wr]; omega) (by rw [length_wr]; exact hds)
      refine ⟨?_, ?_, ?_⟩
      · rw [k1, if_neg (show ¬ t = 0 by omega), hl]
        split <;> rename_i h
        · rw [h]; simp
        · omega
      · rw [k2, length_wr]
      · intro k
        rw [k3, hl]
        by_cases hk : j + 1 ≤ k ∧ k < j + 1 + (Nat.digits 10 (t / 10)).length
        · rw [if_pos hk, if_pos (by omega)]
          have : k - j = (k - (j + 1)) + 1 := by omega
          rw [this, pow_succ, Nat.div_div_eq_div_mul, Nat.mul_comm]
        · rw [if_neg hk]
          by_cases hkj : k = j
          · subst hkj
            rw [rd_wr_eq _ _ _ (by omega), if_pos (by omega)]
            simp
          · rw [rd_wr_ne _ _ _ _ (fun h => hkj h.symm), if_neg (by omega)]

theorem mag_of_digits (ds : List Int) (t : Nat) (k : Nat)
    (h : ∀ i, i < k → rd ds i = ((t / 10 ^ i % 10 : Nat) : Int)) :
    mag ds k = ((t % 10 ^ k : Nat) : Int) := by
  induction k with
  | zero => simp [mag, Nat.mod_one]
  | succ k ih =>
    simp only [mag]
    rw [ih (fun i hi => h i (Nat.lt_succ_of_lt hi)), h k (Nat.lt_succ_self k), Nat.mod_pow_succ]
    push_cast
    ring

theorem to_uint_abs (m : Int) (h1 : -2 ^ 31 ≤ m) (h2 : m < 2 ^ 31) :
    to_uint (abs m) = m.natAbs := by
  unfold to_uint abs wrap32
  norm_num at h1 h2 ⊢
  split <;> omega

theorem int_to_bignum_spec (m : Int) (h1 : -2 ^ 31 ≤ m) (h2 : m < 2 ^ 31) :
    (int_to_bignum m).signbit = (if 0 ≤ m then POSITIVE else NEGATIVE) ∧
    (int_to_bignum m).digits.length = MAX_DIGITS ∧
    (∀ i, rd (int_to_bignum m).digits i = (((Nat.digits 10 m.natAbs).getD i 0 : Nat) : Int)) ∧
    (int_to_bignum m).lastdigit = (Nat.digits 10 m.natAbs).length - 1 ∧
    value (int_to_bignum m) = m := by
  have ht := to_uint_abs m h1 h2
  have hlen : (Nat.digits 10 m.natAbs).length ≤ 10 :=
    digits_length_le 10 m.natAbs (by norm_num at h1 h2 ⊢; omega)
  obtain ⟨k1, k2, k3⟩ := peel_spec m.natAbs m.natAbs (2 ^ 32 - 1) 0
    (List.replicate MAX_DIGITS 0) (le_refl _) (by norm_num)
    (by simp [MAX_DIGITS]; omega) (by simp [MAX_DIGITS])
  have hd : ∀ i, rd (int_to_bignum m).digits i
      = ((m.natAbs / 10 ^ i % 10 : Nat) : Int) := by
    intro i
    simp only [int_to_bignum, ht]
    rw [k3, rd_replicate]
    split
    · simp
    · rename_i h
      have hlt := Nat.lt_base_pow_length_digits (b := 10) (m := m.natAbs) (by norm_num)
      have hle : 10 ^ (Nat.digits 10 m.natAbs).length ≤ 10 ^ i :=
        Nat.pow_le_pow_right (by norm_num) (by omega)
      rw [Nat.div_eq_of_lt (by omega)]
      simp
  have hl : (int_to_bignum m).lastdigit = (Nat.digits 10 m.natAbs).length - 1 := by
    simp only [int_to_bignum, ht]
    rw [k1]
    by_cases h0 : m = 0
    · subst h0; simp
    · have : m.natAbs ≠ 0 := by omega
      simp [h0, this]
  refine ⟨?_, ?_, ?_, hl, ?_⟩
  · simp only [int_to_bignum, ge_iff_le]
  · simp only [int_to_bignum, ht]
    rw [k2]; simp
  · intro i
    rw [hd, digits_getD]
  · have hmag : magnitude (int_to_bignum m) = (m.natAbs : Int) := by
      unfold magnitude
      rw [mag_of_digits _ m.natAbs _ (fun i _ => hd i), hl]
      by_cases h0 : m = 0
      · subst h0; simp
      · have hne : m.natAbs ≠ 0 := by omega
        have hpos : 0 < (Nat.digits 10 m.natAbs).length := by
          rw [Nat.digits_def' (by norm_num) (by omega)]; simp
        have : (Nat.digits 10 m.natAbs).length - 1 + 1 = (Nat.digits 10 m.natAbs).length := by
          omega
        rw [this, Nat.mod_eq_of_lt (Nat.lt_base_pow_length_digits (by norm_num))]
    unfold value
    rw [hmag]
    simp only [int_to_bignum, ge_iff_le]
    split
    · simp only [POSITIVE]; omega
    · simp only [NEGATIVE]; omega

/-! ## Decimal shift -/

theorem shl_loop_spec (d : Nat) (hd : 1 ≤ d) (k : Nat) :
    ∀ ds : List Int, k + d ≤ ds.length →
      (shl_loop d k ds).length = ds.length ∧
      ∀ j, rd (shl_loop d k ds) j = if d ≤ j ∧ j < k + d then rd ds (j - d) else rd ds j := by
  induction k with
  | zero =>
    intro ds _
    refine ⟨rfl, fun j => ?_⟩
    rw [if_neg (by omega)]
    rfl
  | succ k ih =>
    intro ds hlen
    simp only [shl_loop]
    obtain ⟨k1, k2⟩ := ih (wr ds (k + d) (rd ds k)) (by rw [length_wr]; omega)
    refine ⟨by rw [k1, length_wr], fun j => ?_⟩
    rw [k2]
    by_cases h1 : d ≤ j ∧ j < k + d
    · rw [if_pos h1, if_pos (by omega), rd_wr_ne _ _ _ _ (by omega)]
    · rw [if_neg h1]
      by_cases h2 : j = k + d
      · subst h2
        rw [rd_wr_eq _ _ _ (by omega), if_pos (by omega)]
        congr 1
        omega
      · rw [rd_wr_ne _ _ _ _ (fun h => h2 h.symm), if_neg (by omega)]

theorem fill_loop_spec (n : Nat) :
    ∀ (i : Nat) (ds : List Int), i + n ≤ ds.length →
      (fill_loop n i ds).length = ds.length ∧
      ∀ j, rd (fill_loop n i ds) j = if i ≤ j ∧ j < i + n then 0 else rd ds j := by
  induction n with
  | zero =>
    intro i ds _
    refine ⟨rfl, fun j => ?_⟩
    rw [if_neg (by omega)]
    rfl
  | succ n ih =>
    intro i ds hlen
    simp only [fill_loop]
    obtain ⟨k1, k2⟩ := ih (i + 1) (wr ds i 0) (by rw [length_wr]; omega)
    refine ⟨by rw [k1, length_wr], fun j => ?_⟩
    rw [k2]
    by_cases h1 : i + 1 ≤ j ∧ j < i + 1 + n
    · rw [if_pos h1, if_pos (by omega)]
    · rw [if_neg h1]
      by_cases h2 : j = i
      · subst h2
        rw [rd_wr_eq _ _ _ (by omega), if_pos (by omega)]
      · rw [rd_wr_ne _ _ _ _ (fun h => h2 h.symm), if_neg (by omega)]

theorem mag_shift (r ds : List Int) (d : Nat) (k : Nat)
    (h : ∀ j, j < k + d → rd r j = if j < d then 0 else rd ds (j - d)) :
    mag r (k + d) = mag ds k * 10 ^ d := by
  induction k with
  | zero =>
    have := mag_zeros r 0 d (fun j _ h2 => by rw [h j (by omega), if_pos (by omega)])
    simp only [Nat.zero_add] at this ⊢
    rw [this]
    simp [mag]
  | succ k ih =>
    have e : k + 1 + d = (k + d) + 1 := by omega
    rw [e]
    simp only [mag]
    rw [ih (fun j hj => h j (by omega)), h (k + d) (by omega), if_neg (by omega),
      Nat.add_sub_cancel, pow_add]
    ring

theorem decimal_shl_of_zero (n : bignum) (d : Nat) (h : is_zero n = true ∨ d = 0) :
    decimal_shl n d = n := by
  unfold decimal_shl
  rcases h with h | h
  · simp [h]
  · simp [h]

theorem decimal_shl_of_pos (n : bignum) (d : Nat) (h : is_zero n = false) (hd : d ≠ 0) :
    decimal_shl n d =
      { digits := fill_loop d 0 (shl_loop d (n.lastdigit + 1) n.digits)
        signbit := n.signbit
        lastdigit := n.lastdigit + d } := by
  unfold decimal_shl
  simp [h, hd]

theorem rd_decimal_shl (n : bignum) (d : Nat) (hn : loose n) (h : is_zero n = false)
    (hd : d ≠ 0) (hcap : n.lastdigit + d < MAX_DIGITS) (j : Nat) (hj : j < MAX_DIGITS) :
    rd (decimal_shl n d).digits j = if j < d then 0 else rd n.digits (j - d) := by
  obtain ⟨h1, h2, h3, h4, h5⟩ := hn
  rw [decimal_shl_of_pos n d h hd]
  obtain ⟨s1, s2⟩ := shl_loop_spec d (by omega) (n.lastdigit + 1) n.digits (by omega)
  obtain ⟨f1, f2⟩ := fill_loop_spec d 0 (shl_loop d (n.lastdigit + 1) n.digits) (by omega)
  simp only
  rw [f2, s2]
  by_cases hjd : j < d
  · rw [if_pos (by omega), if_pos hjd]
  · rw [if_neg (by omega), if_neg hjd]
    split
    · rfl
    · rw [h5 j hj (by omega), h5 (j - d) (by omega) (by omega)]

theorem decimal_shl_spec (n : bignum) (d : Nat) (hn : normal n)
    (hcap : n.lastdigit + d < MAX_DIGITS) :
    normal (decimal_shl n d) ∧ value (decimal_shl n d) = value n * 10 ^ d ∧
      (decimal_shl n d).signbit = n.signbit := by
  by_cases hz : is_zero n = true
  · rw [decimal_shl_of_zero n d (Or.inl hz)]
    refine ⟨hn, ?_, rfl⟩
    simp [value, magnitude_of_is_zero n hz]
  by_cases hd : d = 0
  · rw [decimal_shl_of_zero n d (Or.inr hd), hd]
    exact ⟨hn, by simp, rfl⟩
  have hz' : is_zero n = false := by simpa using hz
  have hrd := rd_decimal_shl n d hn.1.1 hz' hd hcap
  have e := decimal_shl_of_pos n d hz' hd
  obtain ⟨⟨⟨h1, h2, h3, h4, h5⟩, h6⟩, _⟩ := hn
  obtain ⟨s1, s2⟩ := shl_loop_spec d (by omega) (n.lastdigit + 1) n.digits (by omega)
  obtain ⟨f1, f2⟩ := fill_loop_spec d 0 (shl_loop d (n.lastdigit + 1) n.digits) (by omega)
  have hlast : (decimal_shl n d).lastdigit = n.lastdigit + d := by rw [e]
  have hsign : (decimal_shl n d).signbit = n.signbit := by rw [e]
  refine ⟨⟨⟨⟨?_, ?_, ?_, ?_, ?_⟩, ?_⟩, ?_⟩, ?_, hsign⟩
  · rw [e]; simp only; rw [f1, s1, h1]
  · rw [hsign]; exact h2
  · rw [hlast]; exact hcap
  · intro i hi
    rw [hrd i hi]
    split
    · omega
    · exact h4 (i - d) (by omega)
  · intro i hi hlt
    rw [hlast] at hlt
    rw [hrd i hi, if_neg (by omega)]
    exact h5 (i - d) (by omega) (by omega)
  · right
    rw [hlast, hrd _ hcap, if_neg (by omega), Nat.add_sub_cancel]
    rcases h6 with h6 | h6
    · intro h0
      rw [h6] at h0
      exact hz ((is_zero_iff n).2 ⟨h6, h0⟩)
    · exact h6
  · intro hzz
    rw [is_zero_iff, hlast] at hzz
    omega
  · unfold value magnitude
    rw [hsign, hlast]
    have : n.lastdigit + d + 1 = (n.lastdigit + 1) + d := by omega
    rw [this, mag_shift _ n.digits d (n.lastdigit + 1) (fun j hj => hrd j (by omega))]
    ring

set_option maxRecDepth 100000

/-! ## Multiplication -/

theorem lastdigit_le_of_abs (n : bignum) (h : wf n) (k : Nat) (hm : |value n| < 10 ^ (k + 1)) :
    n.lastdigit ≤ k := by
  rw [lastdigit_le_iff n h, ← natAbs_value n h.1]
  exact hm

theorem mul_inner_spec (f : Nat) (row : bignum) (hrow : wf row)
    (hl : row.lastdigit ≤ 126) (j : Nat) :
    ∀ r : bignum, normal r → |value r| + j * |value row| < 10 ^ 127 →
      ∃ r2, mul_inner (f + 3) j r row = some (r2, row) ∧ normal r2 ∧
        value r2 = value r + j * value row := by
  induction j with
  | zero =>
    intro r hr _
    exact ⟨r, rfl, hr, by simp⟩
  | succ j ih =>
    intro r hr hcap
    have r0 := abs_nonneg (value row)
    have hj0 : 0 ≤ (j : Int) * |value row| := by positivity
    rw [Nat.cast_succ] at hcap
    have hrl : r.lastdigit ≤ 126 := by
      apply lastdigit_le_of_abs r hr.1 126
      show |value r| < 10 ^ 127
      generalize (10 : Int) ^ 127 = P at hcap ⊢
      linarith
    obtain ⟨t, e, ht, vt⟩ := add_spec f r row hr.1 hrow (fun _ => ⟨hrl, hl⟩)
    have hcap2 : |value t| + j * |value row| < 10 ^ 127 := by
      have := abs_add (value r) (value row)
      rw [vt]
      generalize (10 : Int) ^ 127 = P at hcap ⊢
      linarith
    obtain ⟨r2, e2, hr2, v2⟩ := ih t ht hcap2
    refine ⟨r2, ?_, hr2, ?_⟩
    · simp only [mul_inner, e]
      exact e2
    · rw [v2, vt]; push_cast; ring

theorem mul_outer_spec (f : Nat) (b : bignum) (hb : loose b) (A : Int) (la : Nat)
    (hA : |A| < 10 ^ (la + 1)) (n : Nat) :
    ∀ (i : Nat) (r row : bignum), normal r → normal row →
      value row = A * 10 ^ i → value r = A * mag b.digits i →
      la + (i + n) + 1 < MAX_DIGITS →
      ∃ r2 row2, mul_outer (f + 3) b n i r row = some (r2, row2) ∧ normal r2 ∧
        value r2 = A * mag b.digits (i + n) := by
  induction n with
  | zero =>
    intro i r row hr _ _ vr _
    exact ⟨r, row, rfl, hr, vr⟩
  | succ n ih =>
    intro i r row hr hrow vrow vr hcap
    simp only [MAX_DIGITS] at hcap
    have hd := hb.2.2.2.1 i (by simp only [MAX_DIGITS]; omega)
    have hbi0 := mag_nonneg b.digits i (fun j hj => (hb.2.2.2.1 j (by
      simp only [MAX_DIGITS]; omega)).1)
    have hbi1 := mag_lt b.digits (i + 1) (fun j hj => (hb.2.2.2.1 j (by
      simp only [MAX_DIGITS]; omega)).2)
    have hA0 := abs_nonneg A
    have hp : (0 : Int) < 10 ^ i := by positivity
    have habsrow : |value row| = |A| * 10 ^ i := by
      rw [vrow, abs_mul, abs_of_pos hp]
    have habsr : |value r| = |A| * mag b.digits i := by
      rw [vr, abs_mul, abs_of_nonneg hbi0]
    have hpow : (10 : Int) ^ (la + 1) * 10 ^ (i + 1) ≤ 10 ^ 127 := by
      rw [← pow_add]
      exact pow_le_pow_right₀ (by norm_num) (by omega)
    have hrowl : row.lastdigit ≤ la + i := by
      apply lastdigit_le_of_abs row hrow.1
      rw [habsrow]
      have : (10 : Int) ^ (la + i + 1) = 10 ^ (la + 1) * 10 ^ i := by rw [← pow_add]; congr 1; omega
      rw [this]
      exact mul_lt_mul_of_pos_right hA hp
    have hdn : ((rd b.digits i).toNat : Int) = rd b.digits i := Int.toNat_of_nonneg hd.1
    have hinner : |value r| + (rd b.digits i).toNat * |value row| < 10 ^ 127 := by
      rw [hdn, habsr, habsrow]
      simp only [mag] at hbi1
      have e : |A| * mag b.digits i + rd b.digits i * (|A| * 10 ^ i)
          = |A| * (mag b.digits i + rd b.digits i * 10 ^ i) := by ring
      rw [e]
      have h1 : |A| * (mag b.digits i + rd b.digits i * 10 ^ i)
          ≤ |A| * 10 ^ (i + 1) := mul_le_mul_of_nonneg_left (le_of_lt hbi1) hA0
      have h2 : |A| * 10 ^ (i + 1) < 10 ^ (la + 1) * 10 ^ (i + 1) :=
        mul_lt_mul_of_pos_right hA (by positivity)
      exact lt_of_le_of_lt h1 (lt_of_lt_of_le h2 hpow)
    obtain ⟨r2, e2, hr2, v2⟩ := mul_inner_spec f row hrow.1
      (by omega) (rd b.digits i).toNat r hr hinner
    obtain ⟨s1, s2, _⟩ := decimal_shl_spec row 1 hrow (by simp only [MAX_DIGITS]; omega)
    obtain ⟨r3, row3, e3, hr3, v3⟩ := ih (i + 1) r2 (decimal_shl row 1) hr2 s1
      (by rw [s2, vrow, pow_succ]; ring)
      (by rw [v2, hdn, vr, vrow]; simp only [mag]; ring)
      (by simp only [MAX_DIGITS]; omega)
    refine ⟨r3, row3, ?_, hr3, ?_⟩
    · simp only [mul_outer, e2]
      exact e3
    · rw [v3]
      congr 2
      omega

theorem normal_of_init : normal initialize_bignum := by decide

theorem value_of_init : value initialize_bignum = 0 := by decide

theorem magnitude_of_is_one (n : bignum) (h : is_one n = true) : magnitude n = 1 := by
  obtain ⟨h1, h2⟩ := (is_one_iff n).1 h
  simp [magnitude, h1, mag, h2]

theorem sign_mul_cases (a b : bignum) (ha : loose a) (hb : loose b) :
    a.signbit * b.signbit = POSITIVE ∨ a.signbit * b.signbit = NEGATIVE := by
  rcases ha.2.1 with h | h <;> rcases hb.2.1 with h2 | h2 <;> rw [h, h2] <;>
    simp [POSITIVE, NEGATIVE]

theorem normal_with_sign (n : bignum) (h : normal n) (hz : is_zero n = false) (s : Int)
    (hs : s = POSITIVE ∨ s = NEGATIVE) : normal { n with signbit := s } := by
  refine ⟨wf_with_sign n h.1 s hs, ?_⟩
  intro h2
  have : is_zero n = true := by
    rw [is_zero_iff] at h2 ⊢
    exact h2
  rw [hz] at this
  exact absurd this (by decide)

theorem mul_spec (f : Nat) (a b : bignum) (ha : normal a) (hb : normal b)
    (hcap : a.lastdigit + b.lastdigit + 2 < MAX_DIGITS) :
    ∃ r, mul_bignum (f + 3) a b = some (r, a, b) ∧ normal r ∧
      value r = value a * value b ∧ (value r ≠ 0 → r.signbit = a.signbit * b.signbit) := by
  unfold mul_bignum
  by_cases hz : (is_zero a || is_zero b) = true
  · simp only [hz, if_true]
    refine ⟨_, rfl, normal_of_init, ?_, fun h => absurd value_of_init h⟩
    rw [value_of_init]
    rcases Bool.or_eq_true_iff.mp hz with h | h
    · simp [value, magnitude_of_is_zero a h]
    · simp [value, magnitude_of_is_zero b h]
  · have hza : is_zero a = false := by
      cases h : is_zero a
      · rfl
      · rw [h] at hz; simp at hz
    have hzb : is_zero b = false := by
      cases h : is_zero b
      · rfl
      · rw [h] at hz; simp at hz
    simp only [hz, if_false, Bool.false_eq_true]
    by_cases h1 : is_one a = true
    · simp only [h1, if_true]
      refine ⟨_, rfl, normal_with_sign b hb hzb _ ?_, ?_, fun _ => by ring⟩
      · rw [mul_comm]; exact sign_mul_cases a b ha.1.1 hb.1.1
      · rw [value_with_sign b]
        simp only [value, magnitude_of_is_one a h1]; ring
    · simp only [h1, if_false, Bool.false_eq_true]
      by_cases h2 : is_one b = true
      · simp only [h2, if_true]
        refine ⟨_, rfl, normal_with_sign a ha hza _ (sign_mul_cases a b ha.1.1 hb.1.1), ?_,
          fun _ => rfl⟩
        rw [value_with_sign a]
        simp only [value, magnitude_of_is_one b h2]; ring
      · simp only [h2, if_false, Bool.false_eq_true]
        have hA : |value a| < 10 ^ (a.lastdigit + 1) := by
          rw [natAbs_value a ha.1.1]; exact magnitude_lt a ha.1.1
        obtain ⟨r2, row2, e, hr2, v2⟩ := mul_outer_spec f b hb.1.1 (value a) a.lastdigit hA
          (b.lastdigit + 1) 0 initialize_bignum a normal_of_init ha (by simp)
          (by rw [value_of_init]; simp [mag]) (by omega)
        simp only [e]
        simp only [Nat.zero_add] at v2
        have hm : magnitude r2 = magnitude a * magnitude b := by
          rw [← natAbs_value r2 hr2.1.1, v2, abs_mul, natAbs_value a ha.1.1]
          congr 1
          exact abs_of_nonneg (magnitude_nonneg b hb.1.1)
        have hv : value (zero_justify { r2 with signbit := a.signbit * b.signbit })
            = value a * value b := by
          rw [value_zero_justify, value_with_sign r2, hm]
          simp only [value]; ring
        refine ⟨_, rfl, ?_, hv, ?_⟩
        · apply normal_zero_justify
          obtain ⟨q1, _, q3, q4, q5⟩ := hr2.1.1
          exact ⟨q1, sign_mul_cases a b ha.1.1 hb.1.1, q3, q4, q5⟩
        · intro hne
          rw [zero_justify_signbit]
          split
          · rename_i hzz
            exfalso
            apply hne
            have : is_zero (zero_justify { r2 with signbit := a.signbit * b.signbit }) = true := by
              rw [is_zero_iff, zero_justify_digits, zero_justify_lastdigit]
              exact hzz
            simp [value, magnitude_of_is_zero _ this]
          · rfl

/-! ## Comparison and subtraction -/

theorem compare_value (a b : bignum) (ha : normal a) (hb : normal b) :
    compare_bignum a b =
      if value a < value b then NEGATIVE else if value a = value b then 0 else POSITIVE := by
  have a0 := magnitude_nonneg a ha.1.1
  have b0 := magnitude_nonneg b hb.1.1
  by_cases hs : a.signbit = b.signbit
  · rw [compare_same_sign a b ha.1 hb.1 hs]
    rcases sign_cases a ha.1.1 with h | h
    · rw [value_pos_of_sign a h, value_pos_of_sign b (hs ▸ h), h]
      split_ifs <;> first | rfl | omega
    · rw [value_neg_of_sign a h, value_neg_of_sign b (hs ▸ h), h]
      split_ifs <;> first | rfl | omega
  · have e : compare_bignum a b = a.signbit := by
      unfold compare_bignum
      simp only [ne_eq, hs, not_false_eq_true, if_true]
    rw [e]
    rcases sign_cases a ha.1.1 with h | h <;> rcases sign_cases b hb.1.1 with h2 | h2
    · rw [h, h2] at hs; exact absurd rfl hs
    · have := value_neg_of_normal b hb h2
      have := value_nonneg_of_sign a ha.1.1 h
      rw [h, if_neg (by omega), if_neg (by omega)]
    · have := value_neg_of_normal a ha h
      have := value_nonneg_of_sign b hb.1.1 h2
      rw [h, if_pos (by omega)]
    · rw [h, h2] at hs; exact absurd rfl hs

/-- Sign and zero test of a normal bignum, read off the integer it denotes. -/
theorem normal_sign_iff (r : bignum) (h : normal r) :
    (value r < 0 ↔ r.signbit = NEGATIVE ∧ is_zero r = false) ∧
    (value r = 0 ↔ rd r.digits 0 = 0 ∧ r.lastdigit = 0 ∧ r.signbit = POSITIVE) ∧
    (0 < value r ↔ r.signbit = POSITIVE ∧ is_zero r = false) := by
  have m0 := magnitude_nonneg r h.1.1
  have hz := magnitude_eq_zero_iff r h.1
  have hzz := is_zero_iff r
  have hv0 := value_eq_zero_iff r h.1.1
  have hb : is_zero r = false ↔ ¬ is_zero r = true := by
    cases is_zero r <;> simp
  refine ⟨?_, ?_, ?_⟩
  · constructor
    · intro hv
      rcases sign_cases r h.1.1 with hs | hs
      · rw [value_pos_of_sign r hs] at hv; omega
      · refine ⟨hs, hb.2 (fun hzt => ?_)⟩
        have := h.2 hzt
        rw [hs] at this
        exact absurd this (by decide)
    · rintro ⟨hs, _⟩
      exact value_neg_of_normal r h hs
  · constructor
    · intro hv
      have hzt := hz.1 (hv0.1 hv)
      obtain ⟨h1, h2⟩ := hzz.1 hzt
      exact ⟨h2, h1, h.2 hzt⟩
    · rintro ⟨h1, h2, _⟩
      exact hv0.2 (hz.2 (hzz.2 ⟨h2, h1⟩))
  · constructor
    · intro hv
      rcases sign_cases r h.1.1 with hs | hs
      · refine ⟨hs, hb.2 (fun hzt => ?_)⟩
        have := hv0.2 (hz.2 hzt)
        omega
      · rw [value_neg_of_sign r hs] at hv; omega
    · rintro ⟨hs, hnz⟩
      rw [value_pos_of_sign r hs]
      have : magnitude r ≠ 0 := fun hm => (hb.1 hnz) (hz.1 hm)
      omega

theorem negate_spec (a : bignum) (ha : canonical a) :
    canonical (negate a) ∧ value (negate a) = -value a := by
  unfold negate
  by_cases hz : is_zero a = true
  · rw [if_pos hz]
    refine ⟨ha, ?_⟩
    simp [value, magnitude_of_is_zero a hz]
  · rw [if_neg hz]
    have hz2 : is_zero a = false := by simpa using hz
    have hflip : (-1 * a.signbit = POSITIVE ∨ -1 * a.signbit = NEGATIVE) := by
      rcases ha.1.1.1.2.1 with h | h <;> rw [h] <;> simp [POSITIVE, NEGATIVE]
    refine ⟨⟨normal_with_sign a ha.1 hz2 _ hflip, ha.2⟩, ?_⟩
    rw [value_with_sign a (-1 * a.signbit)]
    simp only [value]; ring

/-! ## Normalisation is idempotent -/

theorem strip_fix (ds : List Int) (l : Nat) (h : l = 0 ∨ rd ds l ≠ 0) : strip ds l = l := by
  cases l with
  | zero => rfl
  | succ l =>
    rcases h with h | h
    · omega
    · simp only [strip, if_neg h]

theorem strip_idem (ds : List Int) (l : Nat) : strip ds (strip ds l) = strip ds l :=
  strip_fix ds _ (strip_top ds l)

theorem zero_justify_eq (n : bignum) :
    zero_justify n =
      { digits := n.digits
        signbit := if strip n.digits n.lastdigit = 0 ∧ rd n.digits 0 = 0 then POSITIVE
          else n.signbit
        lastdigit := strip n.digits n.lastdigit } := by
  have h1 := zero_justify_digits n
  have h2 := zero_justify_lastdigit n
  have h3 := zero_justify_signbit n
  cases hz : zero_justify n
  rw [hz] at h1 h2 h3
  simp only at h1 h2 h3
  rw [h1, h2, h3]

theorem zero_justify_fix (n : bignum) (hl : n.lastdigit = 0 ∨ rd n.digits n.lastdigit ≠ 0)
    (hz : n.lastdigit = 0 → rd n.digits 0 = 0 → n.signbit = POSITIVE) : zero_justify n = n := by
  rw [zero_justify_eq, strip_fix n.digits n.lastdigit hl]
  cases n with
  | mk ds s l =>
    simp only [bignum.mk.injEq, true_and, and_true]
    simp only at hz
    split
    · rename_i h
      exact (hz h.1 h.2).symm
    · rfl

theorem zero_justify_twice (n : bignum) : zero_justify (zero_justify n) = zero_justify n := by
  apply zero_justify_fix
  · rw [zero_justify_digits, zero_justify_lastdigit]
    exact strip_top _ _
  · rw [zero_justify_digits, zero_justify_lastdigit]
    intro h1 h2
    rw [zero_justify_signbit, if_pos ⟨h1, h2⟩]

/-! ## Which digits addition and subtraction read -/

theorem add_loop_congr (a b a2 b2 : List Int) (n : Nat) :
    ∀ (i : Nat) (c : Int) (r : List Int),
      (∀ j, j < i + n → rd a j = rd a2 j) → (∀ j, j < i + n → rd b j = rd b2 j) →
      add_loop a b n i c r = add_loop a2 b2 n i c r := by
  induction n with
  | zero => intro i c r _ _; rfl
  | succ n ih =>
    intro i c r ha hb
    simp only [add_loop]
    rw [ha i (by omega), hb i (by omega)]
    exact ih (i + 1) _ _ (fun j hj => ha j (by omega)) (fun j hj => hb j (by omega))

theorem sub_loop_congr (a b a2 b2 : List Int) (n : Nat) :
    ∀ (i : Nat) (c : Int) (r : List Int),
      (∀ j, j < i + n → rd a j = rd a2 j) → (∀ j, j < i + n → rd b j = rd b2 j) →
      sub_loop a b n i c r = sub_loop a2 b2 n i c r := by
  induction n with
  | zero => intro i c r _ _; rfl
  | succ n ih =>
    intro i c r ha hb
    simp only [sub_loop]
    rw [ha i (by omega), hb i (by omega)]
    exact ih (i + 1) _ _ (fun j hj => ha j (by omega)) (fun j hj => hb j (by omega))

theorem cmp_loop_congr (a b a2 b2 : List Int) (s : Int) (k : Nat)
    (ha : ∀ j, j < k → rd a j = rd a2 j) (hb : ∀ j, j < k → rd b j = rd b2 j) :
    cmp_loop a b s k = cmp_loop a2 b2 s k := by
  induction k with
  | zero => rfl
  | succ k ih =>
    simp only [cmp_loop]
    rw [ha k (by omega), hb k (by omega),
      ih (fun j hj => ha j (by omega)) (fun j hj => hb j (by omega))]

theorem compare_congr (k : Nat) (a a2 b b2 : bignum) (ha : same_upto k a a2)
    (hb : same_upto k b b2) (hk : a.lastdigit ≤ k) :
    compare_bignum a b = compare_bignum a2 b2 := by
  obtain ⟨a1, a3, a4⟩ := ha
  obtain ⟨b1, b3, b4⟩ := hb
  unfold compare_bignum
  simp only [← a1, ← b1, ← a3, ← b3]
  rw [cmp_loop_congr a.digits b.digits a2.digits b2.digits a.signbit (a.lastdigit + 1)
    (fun j hj => a4 j (by omega)) (fun j hj => b4 j (by omega))]

theorem same_upto_with_sign (k : Nat) (x y : bignum) (h : same_upto k x y) (s : Int) :
    same_upto k { x with signbit := s } { y with signbit := s } :=
  ⟨rfl, h.2.1, h.2.2⟩

/-! The result component of each branch of `add_bignum` and `sub_bignum`. -/

theorem add_fst_same (f : Nat) (a b : bignum) (hs : a.signbit = b.signbit) :
    (add_bignum (f + 1) a b).map (fun t => t.1) =
      some (zero_justify
        { digits := (add_loop a.digits b.digits (max a.lastdigit b.lastdigit + 1 + 1) 0 0
            (List.replicate MAX_DIGITS 0)).1
          signbit := a.signbit
          lastdigit := max a.lastdigit b.lastdigit + 1 }) := by
  rw [add_bignum_same f a b hs]; rfl

theorem add_fst_neg (f : Nat) (a b : bignum) (hs : a.signbit ≠ b.signbit)
    (hn : a.signbit = NEGATIVE) :
    (add_bignum (f + 1) a b).map (fun t => t.1) =
      (sub_bignum f b { a with signbit := POSITIVE }).map (fun t => t.1) := by
  rw [add_bignum]
  simp only [hs, if_false, hn, if_true]
  have hs2 : ¬ (NEGATIVE = b.signbit) := by rw [← hn]; exact hs
  simp only [hs2, if_false]
  cases sub_bignum f b { a with signbit := POSITIVE } with
  | none => rfl
  | some t => rfl

theorem add_fst_pos (f : Nat) (a b : bignum) (hs : a.signbit ≠ b.signbit)
    (hn : a.signbit ≠ NEGATIVE) :
    (add_bignum (f + 1) a b).map (fun t => t.1) =
      (sub_bignum f a { b with signbit := POSITIVE }).map (fun t => t.1) := by
  rw [add_bignum]
  simp only [hs, if_false, hn]
  cases sub_bignum f a { b with signbit := POSITIVE } with
  | none => rfl
  | some t => rfl

theorem sub_fst_neg (f : Nat) (a b : bignum)
    (hn : a.signbit = NEGATIVE ∨ b.signbit = NEGATIVE) :
    (sub_bignum (f + 1) a b).map (fun t => t.1) =
      (add_bignum f a { b with signbit := -1 * b.signbit }).map (fun t => t.1) := by
  rw [sub_bignum]
  simp only [hn, if_true]
  cases add_bignum f a { b with signbit := -1 * b.signbit } with
  | none => rfl
  | some t => rfl

theorem sub_fst_swap (f : Nat) (a b : bignum)
    (hn : ¬ (a.signbit = NEGATIVE ∨ b.signbit = NEGATIVE))
    (hc : compare_bignum a b = NEGATIVE) :
    (sub_bignum (f + 1) a b).map (fun t => t.1) =
      ((sub_bignum f b a).map (fun t => t.1)).map
        (fun r => ({ r with signbit := NEGATIVE } : bignum)) := by
  rw [sub_bignum]
  simp only [hn, if_false, hc, if_true]
  cases sub_bignum f b a with
  | none => rfl
  | some t => rfl

theorem sub_fst_direct (f : Nat) (a b : bignum)
    (hn : ¬ (a.signbit = NEGATIVE ∨ b.signbit = NEGATIVE))
    (hc : compare_bignum a b ≠ NEGATIVE) :
    (sub_bignum (f + 1) a b).map (fun t => t.1) =
      some (zero_justify
        { digits := (sub_loop a.digits b.digits (max a.lastdigit b.lastdigit + 1) 0 0
            (List.replicate MAX_DIGITS 0)).1
          signbit := POSITIVE
          lastdigit := max a.lastdigit b.lastdigit }) := by
  obtain ⟨h1, h2⟩ := not_or.mp hn
  rw [sub_bignum_direct f a b h1 h2 hc]; rfl

theorem add_sub_congr (k : Nat) (fuel : Nat) :
    ∀ (a a2 b b2 : bignum), same_upto k a a2 → same_upto k b b2 →
      max a.lastdigit b.lastdigit + 1 ≤ k →
      (add_bignum fuel a b).map (fun t => t.1) = (add_bignum fuel a2 b2).map (fun t => t.1) ∧
      (sub_bignum fuel a b).map (fun t => t.1) = (sub_bignum fuel a2 b2).map (fun t => t.1) := by
  induction fuel with
  | zero =>
    intro a a2 b b2 _ _ _
    simp [add_bignum, sub_bignum]
  | succ f ih =>
    intro a a2 b b2 ha hb hk
    have hla : a.lastdigit ≤ max a.lastdigit b.lastdigit := le_max_left _ _
    have hlb : b.lastdigit ≤ max a.lastdigit b.lastdigit := le_max_right _ _
    have hmax : max b.lastdigit a.lastdigit = max a.lastdigit b.lastdigit := max_comm _ _
    constructor
    · by_cases hs : a.signbit = b.signbit
      · have hs2 : a2.signbit = b2.signbit := by rw [← ha.1, ← hb.1]; exact hs
        rw [add_fst_same f a b hs, add_fst_same f a2 b2 hs2, ← ha.1, ← ha.2.1, ← hb.2.1,
          add_loop_congr a.digits b.digits a2.digits b2.digits _ 0 0 _
            (fun j hj => ha.2.2 j (by omega)) (fun j hj => hb.2.2 j (by omega))]
      · have hs2 : a2.signbit ≠ b2.signbit := by rw [← ha.1, ← hb.1]; exact hs
        by_cases hn : a.signbit = NEGATIVE
        · rw [add_fst_neg f a b hs hn, add_fst_neg f a2 b2 hs2 (by rw [← ha.1]; exact hn)]
          exact (ih b b2 _ _ hb (same_upto_with_sign k a a2 ha POSITIVE)
            (by simp only; omega)).2
        · rw [add_fst_pos f a b hs hn, add_fst_pos f a2 b2 hs2 (by rw [← ha.1]; exact hn)]
          exact (ih a a2 _ _ ha (same_upto_with_sign k b b2 hb POSITIVE)
            (by simp only; omega)).2
    · by_cases hn : a.signbit = NEGATIVE ∨ b.signbit = NEGATIVE
      · have hn2 : a2.signbit = NEGATIVE ∨ b2.signbit = NEGATIVE := by
          rw [← ha.1, ← hb.1]; exact hn
        rw [sub_fst_neg f a b hn, sub_fst_neg f a2 b2 hn2, ← hb.1]
        exact (ih a a2 _ _ ha (same_upto_with_sign k b b2 hb _) (by simp only; omega)).1
      · have hn2 : ¬ (a2.signbit = NEGATIVE ∨ b2.signbit = NEGATIVE) := by
          rw [← ha.1, ← hb.1]; exact hn
        have hc := compare_congr k a a2 b b2 ha hb (by omega)
        by_cases hcn : compare_bignum a b = NEGATIVE
        · rw [sub_fst_swap f a b hn hcn, sub_fst_swap f a2 b2 hn2 (by rw [← hc]; exact hcn),
            (ih b b2 a a2 hb ha (by omega)).2]
        · rw [sub_fst_direct f a b hn hcn, sub_fst_direct f a2 b2 hn2 (by rw [← hc]; exact hcn),
            ← ha.2.1, ← hb.2.1,
            sub_loop_congr a.digits b.digits a2.digits b2.digits _ 0 0 _
              (fun j hj => ha.2.2 j (by omega)) (fun j hj => hb.2.2 j (by omega))]

/-! ## Division -/

theorem wr_wr (ds : List Int) (i : Nat) (u v : Int) : wr (wr ds i u) i v = wr ds i v := by
  simp [wr]

theorem wr_rd_self (ds : List Int) (i : Nat) : wr ds i (rd ds i) = ds := by
  apply list_ext_rd _ _ (length_wr ds i _)
  intro j hj
  rw [length_wr] at hj
  by_cases h : i = j
  · subst h; rw [rd_wr_eq _ _ _ hj]
  · rw [rd_wr_ne _ _ _ _ h]

theorem mag_wr_lt (ds : List Int) (i : Nat) (v : Int) (hi : i < ds.length) (k : Nat)
    (hk : i < k) : mag (wr ds i v) k = mag ds k + (v - rd ds i) * 10 ^ i := by
  induction k with
  | zero => omega
  | succ k ih =>
    simp only [mag]
    rcases Nat.lt_succ_iff_lt_or_eq.mp hk with h | h
    · rw [ih h, rd_wr_ne _ _ _ _ (by omega)]
      ring
    · subst h
      rw [mag_wr_ge _ _ _ _ (le_refl i), rd_wr_eq _ _ _ hi]
      ring

theorem value_mk (ds : List Int) (s : Int) (l : Nat) :
    value { digits := ds, signbit := s, lastdigit := l } = s * mag ds (l + 1) := rfl

theorem normal_of_wf_pos (n : bignum) (h : wf n) (hs : n.signbit = POSITIVE) : normal n :=
  ⟨h, fun _ => hs⟩

theorem sign_pos_of_normal (n : bignum) (h : normal n) (hv : 0 ≤ value n) :
    n.signbit = POSITIVE := by
  rcases sign_cases n h.1.1 with hs | hs
  · exact hs
  · have := value_neg_of_normal n h hs
    omega

/-- Bringing a digit down: `decimal_shl(&row, 1); row.digits[0] = d`. -/
theorem bring_down_spec (row : bignum) (d : Int) (hrow : normal row)
    (hs : row.signbit = POSITIVE) (hl : row.lastdigit + 1 < MAX_DIGITS) (hd0 : 0 ≤ d)
    (hd9 : d ≤ 9) :
    wf { digits := wr (decimal_shl row 1).digits 0 d
         signbit := (decimal_shl row 1).signbit
         lastdigit := (decimal_shl row 1).lastdigit } ∧
    (decimal_shl row 1).signbit = POSITIVE ∧
    value { digits := wr (decimal_shl row 1).digits 0 d
            signbit := (decimal_shl row 1).signbit
            lastdigit := (decimal_shl row 1).lastdigit }
      = 10 * value row + d := by
  obtain ⟨hn1, hv1, hs1⟩ := decimal_shl_spec row 1 hrow hl
  rw [hs] at hs1
  obtain ⟨⟨⟨q1, q2, q3, q4, q5⟩, q6⟩, _⟩ := hn1
  have hlen : 0 < (decimal_shl row 1).digits.length := by rw [q1]; decide
  have hmag : magnitude (decimal_shl row 1) = 10 * value row := by
    rw [← value_pos_of_sign _ hs1, hv1]; ring
  have h0 : rd (decimal_shl row 1).digits 0 = 0 := by
    have e := rd_eq_of_mag (decimal_shl row 1).digits ((decimal_shl row 1).lastdigit + 1)
      (fun j hj => q4 j (by omega)) 0 (by omega)
    rw [e]
    change magnitude (decimal_shl row 1) / 10 ^ 0 % 10 = 0
    rw [hmag]
    simp
  refine ⟨⟨⟨?_, Or.inl hs1, q3, ?_, ?_⟩, ?_⟩, hs1, ?_⟩
  · simp only [length_wr]; exact q1
  · intro i hi
    simp only
    by_cases h : i = 0
    · subst h; rw [rd_wr_eq _ _ _ hlen]; exact ⟨hd0, hd9⟩
    · rw [rd_wr_ne _ _ _ _ (fun e => h e.symm)]; exact q4 i hi
  · intro i hi hlt
    simp only at hlt ⊢
    rw [rd_wr_ne _ _ _ _ (by omega)]
    exact q5 i hi hlt
  · simp only
    rcases q6 with h | h
    · left; exact h
    · by_cases hz : (decimal_shl row 1).lastdigit = 0
      · left; exact hz
      · right
        rw [rd_wr_ne _ _ _ _ (fun e => hz e.symm)]
        exact h
  · rw [value_mk, hs1, mag_wr_lt _ 0 d hlen _ (by omega), h0]
    change POSITIVE * (magnitude (decimal_shl row 1) + (d - 0) * 10 ^ 0) = _
    rw [hmag]
    simp only [POSITIVE]
    ring

theorem div_while_spec (sf i : Nat) (b : bignum) (hb : wf b) (hbs : b.signbit = POSITIVE)
    (f : Nat) :
    ∀ (r row : bignum), wf row → row.signbit = POSITIVE → value row < f * value b →
      i < r.digits.length →
      ∃ q row2,
        div_while (sf + 2) i f r row b =
          some ({ digits := wr r.digits i (rd r.digits i + q)
                  signbit := r.signbit
                  lastdigit := r.lastdigit }, row2, b) ∧
        normal row2 ∧ row2.signbit = POSITIVE ∧ 0 ≤ q ∧
        value row = q * value b + value row2 ∧ value row2 < value b := by
  induction f with
  | zero =>
    intro r row hrow hrs hlt _
    have := value_nonneg_of_sign row hrow.1 hrs
    simp only [Nat.cast_zero, zero_mul] at hlt
    omega
  | succ f ih =>
    intro r row hrow hrs hlt hi
    have hc := compare_same_sign row b hrow hb (by rw [hrs, hbs])
    rw [hrs] at hc
    have vr := value_pos_of_sign row hrs
    have vb := value_pos_of_sign b hbs
    by_cases hlt2 : magnitude row < magnitude b
    · have hcn : compare_bignum row b = NEGATIVE := by
        rw [hc, if_neg (by omega), if_pos hlt2]; rfl
      refine ⟨0, row, ?_, normal_of_wf_pos row hrow hrs, hrs, le_refl _, by ring,
        by rw [vr, vb]; exact hlt2⟩
      simp only [div_while, hcn, ne_eq, not_true_eq_false, if_false, add_zero, wr_rd_self]
    · have hcne : compare_bignum row b ≠ NEGATIVE := by
        rw [hc, if_neg hlt2]
        split <;> decide
      obtain ⟨tmp, e, htmp, vtmp⟩ := sub_direct_spec (sf + 1) row b hrow.1 hb.1 hrs hbs hcne
        (by omega)
      have hts : tmp.signbit = POSITIVE :=
        sign_pos_of_normal tmp htmp (by rw [vtmp, vr, vb]; omega)
      obtain ⟨q, row2, e2, h1, h2, h3, h4, h5⟩ := ih
        { digits := wr r.digits i (rd r.digits i + 1)
          signbit := r.signbit
          lastdigit := r.lastdigit } tmp htmp.1 hts
        (by rw [vtmp]; rw [Nat.cast_succ] at hlt; linarith)
        (by simp only [length_wr]; exact hi)
      rw [vtmp] at h4
      refine ⟨q + 1, row2, ?_, h1, h2, by omega, by linarith, h5⟩
      simp only [div_while, hcne, ne_eq, not_false_eq_true, if_true, e, e2]
      simp only [rd_wr_eq _ _ _ hi, wr_wr]
      rw [show rd r.digits i + 1 + q = rd r.digits i + (q + 1) by ring]

theorem ediv_mul_ten (x n : Int) (hn : 0 < n) : x / (n * 10) = x / n / 10 := by
  have h1 := Int.emod_add_ediv x n
  have h2 := Int.emod_add_ediv (x / n) 10
  have h3 := Int.emod_nonneg x (ne_of_gt hn)
  have h4 := Int.emod_lt_of_pos x hn
  have h5 := Int.emod_nonneg (x / n) (show (10 : Int) ≠ 0 by norm_num)
  have h6 := Int.emod_lt_of_pos (x / n) (show (0 : Int) < 10 by norm_num)
  refine ((Int.ediv_emod_unique (a := x) (b := n * 10) (r := x % n + n * (x / n % 10))
    (q := x / n / 10) (by positivity)).2 ⟨?_, ?_, ?_⟩).1
  · linear_combination h1 + n * h2
  · have := mul_nonneg (le_of_lt hn) h5
    omega
  · have : n * (x / n % 10) ≤ n * 9 := mul_le_mul_of_nonneg_left (by omega) (le_of_lt hn)
    omega

theorem div_loop_spec (f0 : Nat) (a b : bignum) (ha : loose a) (hb : wf b)
    (hbs : b.signbit = POSITIVE) (hb0 : 0 < value b) (hbl : b.lastdigit ≤ 126) (k : Nat) :
    ∀ (r row : bignum), k ≤ a.lastdigit + 1 →
      r.digits.length = MAX_DIGITS →
      (∀ j, j < MAX_DIGITS → 0 ≤ rd r.digits j ∧ rd r.digits j ≤ 9) →
      (∀ j, j < k → rd r.digits j = 0) →
      normal row → row.signbit = POSITIVE →
      value row = magnitude a / 10 ^ k % value b →
      mag r.digits (a.lastdigit + 1) = 10 ^ k * (magnitude a / 10 ^ k / value b) →
      ∃ r2 row2, div_loop (f0 + 10) a k r row b = some (r2, row2, b) ∧
        r2.digits.length = MAX_DIGITS ∧ r2.signbit = r.signbit ∧
        r2.lastdigit = r.lastdigit ∧
        (∀ j, j < MAX_DIGITS → 0 ≤ rd r2.digits j ∧ rd r2.digits j ≤ 9) ∧
        (∀ j, a.lastdigit < j → rd r2.digits j = rd r.digits j) ∧
        mag r2.digits (a.lastdigit + 1) = magnitude a / value b := by
  induction k with
  | zero =>
    intro r row _ h1 h2 _ _ _ _ hm
    refine ⟨r, row, rfl, h1, rfl, rfl, h2, fun _ _ => rfl, ?_⟩
    rw [hm]
    simp
  | succ k ih =>
    intro r row hk h1 h2 h3 hrow hrs hv hm
    have hla := ha.2.2.1
    simp only [MAX_DIGITS] at hla
    have hk128 : k < 128 := by omega
    have hd := ha.2.2.2.1 k (by simp only [MAX_DIGITS]; omega)
    have hA0 := magnitude_nonneg a ha
    have hp : (0 : Int) < 10 ^ k := by positivity
    -- the digit brought down is the next decimal digit of the dividend
    have hde : rd a.digits k = magnitude a / 10 ^ k % 10 :=
      rd_eq_of_mag a.digits (a.lastdigit + 1)
        (fun j hj => ha.2.2.2.1 j (by simp only [MAX_DIGITS]; omega)) k (by omega)
    have hT : magnitude a / 10 ^ (k + 1) = magnitude a / 10 ^ k / 10 := by
      rw [pow_succ, ediv_mul_ten _ _ hp]
    have hsplit : magnitude a / 10 ^ k
        = 10 * (magnitude a / 10 ^ (k + 1)) + rd a.digits k := by
      rw [hT, hde]
      have := Int.emod_add_ediv (magnitude a / 10 ^ k) 10
      omega
    have hTB := Int.emod_add_ediv (magnitude a / 10 ^ (k + 1)) (value b)
    have hrow0 : 0 ≤ value row := value_nonneg_of_sign row hrow.1.1 hrs
    have hrowB : value row < value b := by
      rw [hv]; exact Int.emod_lt_of_pos _ hb0
    have hrl : row.lastdigit ≤ b.lastdigit := by
      apply lastdigit_le_of_abs row hrow.1
      rw [abs_of_nonneg hrow0]
      have := magnitude_lt b hb.1
      rw [value_pos_of_sign b hbs] at hrowB
      omega
    obtain ⟨w1, w2, w3⟩ := bring_down_spec row (rd a.digits k) hrow hrs
      (by simp only [MAX_DIGITS]; omega) hd.1 hd.2
    have hfuel : value
        { digits := wr (decimal_shl row 1).digits 0 (rd a.digits k)
          signbit := (decimal_shl row 1).signbit
          lastdigit := (decimal_shl row 1).lastdigit }
        < ((f0 + 10 : Nat) : Int) * value b := by
      rw [w3]
      have hf0 : (0 : Int) ≤ (f0 : Int) * value b :=
        mul_nonneg (Int.ofNat_nonneg f0) (le_of_lt hb0)
      push_cast
      linarith [hd.2]
    obtain ⟨q, row3, e, n3, s3, q0, hq, hr3⟩ := div_while_spec (f0 + 8) k b hb hbs (f0 + 10)
      { digits := wr r.digits k 0, signbit := r.signbit, lastdigit := r.lastdigit }
      _ w1 w2 hfuel (by simp only [length_wr]; rw [h1]; simp only [MAX_DIGITS]; omega)
    have hklen : k < r.digits.length := by rw [h1]; simp only [MAX_DIGITS]; omega
    simp only [rd_wr_eq _ _ _ hklen, wr_wr, zero_add] at e
    rw [w3] at hq
    have hr30 : 0 ≤ value row3 := value_nonneg_of_sign row3 n3.1.1 s3
    have hq9 : q ≤ 9 := by
      by_contra hcon
      have : 10 ≤ q := by omega
      have : 10 * value b ≤ q * value b := mul_le_mul_of_nonneg_right this (le_of_lt hb0)
      linarith [hd.2]
    have huniq := (Int.ediv_emod_unique (a := magnitude a / 10 ^ k) (b := value b)
      (r := value row3) (q := 10 * (magnitude a / 10 ^ (k + 1) / value b) + q) hb0).2
      ⟨by rw [hsplit]; rw [hv] at hq; linear_combination (-1 : Int) * hq + 10 * hTB,
        hr30, hr3⟩
    obtain ⟨r2, row2, e2, g1, g2, g3, g4, g5, g6⟩ := ih
      { digits := wr r.digits k q, signbit := r.signbit, lastdigit := r.lastdigit } row3
      (by omega) (by simp only [length_wr]; exact h1)
      (by
        intro j hj
        simp only
        by_cases hjk : j = k
        · subst hjk; rw [rd_wr_eq _ _ _ hklen]; exact ⟨q0, hq9⟩
        · rw [rd_wr_ne _ _ _ _ (fun h => hjk h.symm)]; exact h2 j hj)
      (by
        intro j hj
        simp only
        rw [rd_wr_ne _ _ _ _ (by omega)]
        exact h3 j (by omega))
      n3 s3 huniq.2.symm
      (by
        simp only
        rw [mag_wr_lt _ k q hklen _ (by omega), h3 k (by omega), hm, huniq.1, pow_succ]
        ring)
    refine ⟨r2, row2, ?_, g1, g2, g3, g4, ?_, g6⟩
    · simp only [div_loop]
      have e3 : div_while (f0 + 10) k (f0 + 10)
          { digits := wr r.digits k 0, signbit := r.signbit, lastdigit := r.lastdigit }
          { digits := wr (decimal_shl row 1).digits 0 (rd a.digits k)
            signbit := (decimal_shl row 1).signbit
            lastdigit := (decimal_shl row 1).lastdigit } b = _ := e
      rw [e3]
      exact e2
    · intro j hj
      rw [g5 j hj]
      simp only
      rw [rd_wr_ne _ _ _ _ (by omega)]

theorem mag_replicate (n k : Nat) : mag (List.replicate n (0 : Int)) k = 0 := by
  have := mag_zeros (List.replicate n (0 : Int)) 0 k (fun j _ _ => rd_replicate n j)
  rw [Nat.zero_add] at this
  rw [this]; rfl

theorem div_spec (f0 : Nat) (a b : bignum) (ha : normal a) (hb : normal b)
    (hbl : b.lastdigit ≤ 126) (hbz : is_zero b = false) :
    ∃ r, div_bignum (f0 + 10) a b = some (r, a, b) ∧ normal r ∧
      value r = (if is_zero a = true ∨ compare_bignum a b = NEGATIVE then 0
        else a.signbit * b.signbit * (magnitude a / magnitude b)) := by
  unfold div_bignum
  by_cases hc : is_zero a = true ∨ compare_bignum a b = NEGATIVE
  · have hc2 : (is_zero a || compare_bignum a b == NEGATIVE) = true := by
      simpa [Bool.or_eq_true] using hc
    simp only [hc2, if_true, if_pos hc]
    exact ⟨_, rfl, normal_of_init, value_of_init⟩
  · have hc2 : ¬ (is_zero a || compare_bignum a b == NEGATIVE) = true := by
      simpa [Bool.or_eq_true] using hc
    have hza : is_zero a = false := by
      cases h : is_zero a
      · rfl
      · exact absurd (Or.inl h) hc
    simp only [hc2, if_false, if_neg hc]
    by_cases h1 : is_one b = true
    · simp only [h1, if_true]
      refine ⟨_, rfl, normal_with_sign a ha hza _ (sign_mul_cases a b ha.1.1 hb.1.1), ?_⟩
      rw [value_with_sign a, magnitude_of_is_one b h1]
      simp
    · simp only [h1, if_false, Bool.false_eq_true]
      have hB : 0 < magnitude b := by
        have h0 := magnitude_nonneg b hb.1.1
        have hne : magnitude b ≠ 0 := by
          intro h
          have := (magnitude_eq_zero_iff b hb.1).1 h
          rw [hbz] at this
          exact absurd this (by decide)
        omega
      have hA0 := magnitude_nonneg a ha.1.1
      have hA1 := magnitude_lt a ha.1.1
      have hb1 : wf ({ b with signbit := POSITIVE } : bignum) :=
        wf_with_sign b hb.1 _ (Or.inl rfl)
      have ha1 : loose ({ a with signbit := POSITIVE } : bignum) :=
        (wf_with_sign a ha.1 _ (Or.inl rfl)).1
      have hvb : value ({ b with signbit := POSITIVE } : bignum) = magnitude b := by
        rw [value_with_sign b]; simp [POSITIVE]
      obtain ⟨r2, row2, e, g1, g2, g3, g4, g5, g6⟩ := div_loop_spec f0
        { a with signbit := POSITIVE } { b with signbit := POSITIVE } ha1 hb1 rfl
        (by rw [hvb]; exact hB) hbl (a.lastdigit + 1)
        { digits := List.replicate MAX_DIGITS 0
          signbit := a.signbit * b.signbit
          lastdigit := a.lastdigit }
        initialize_bignum (le_refl _) (by simp)
        (fun j _ => by simp only [rd_replicate]; omega)
        (fun j _ => rd_replicate _ j) normal_of_init (by decide)
        (by
          rw [value_of_init]
          change 0 = magnitude a / 10 ^ (a.lastdigit + 1) % _
          rw [Int.ediv_eq_zero_of_lt hA0 hA1, Int.zero_emod])
        (by
          simp only [mag_replicate]
          change 0 = 10 ^ (a.lastdigit + 1) * (magnitude a / 10 ^ (a.lastdigit + 1) / _)
          rw [Int.ediv_eq_zero_of_lt hA0 hA1, Int.zero_ediv, mul_zero])
      simp only at g2 g3 g5 g6
      simp only [initialize_bignum_eq]
      simp only [initialize_bignum_eq] at e
      rw [e]
      simp only
      refine ⟨_, rfl, ?_, ?_⟩
      · apply normal_zero_justify
        refine ⟨g1, ?_, ?_, g4, ?_⟩
        · rw [g2]; exact sign_mul_cases a b ha.1.1 hb.1.1
        · rw [g3]; exact ha.1.1.2.2.1
        · intro j _ hj
          rw [g3] at hj
          rw [g5 j hj, rd_replicate]
      · rw [value_zero_justify]
        unfold value magnitude
        rw [g2, g3, g6]
        change a.signbit * b.signbit * (magnitude a / value { b with signbit := POSITIVE }) = _
        rw [hvb]
        rfl

theorem div_spec_nonneg (f0 : Nat) (a b : bignum) (ha : normal a) (hb : normal b)
    (hbl : b.lastdigit ≤ 126) (hbz : is_zero b = false) (ha0 : 0 ≤ value a) :
    ∃ r, div_bignum (f0 + 10) a b = some (r, a, b) ∧ normal r ∧
      value r = b.signbit * (magnitude a / magnitude b) := by
  obtain ⟨r, e, hn, hv⟩ := div_spec f0 a b ha hb hbl hbz
  refine ⟨r, e, hn, ?_⟩
  have has := sign_pos_of_normal a ha ha0
  have hA0 := magnitude_nonneg a ha.1.1
  have hB0 := magnitude_nonneg b hb.1.1
  rw [hv]
  split
  · rename_i hc
    rcases hc with hz | hcn
    · rw [magnitude_of_is_zero a hz]; simp
    · rw [compare_value a b ha hb] at hcn
      have hlt : value a < value b := by
        by_contra hge
        rw [if_neg hge] at hcn
        split at hcn <;> exact absurd hcn (by decide)
      have hbs : b.signbit = POSITIVE := sign_pos_of_normal b hb (by omega)
      rw [value_pos_of_sign a has, value_pos_of_sign b hbs] at hlt
      rw [Int.ediv_eq_zero_of_lt hA0 hlt]; simp
  · rw [has]; simp [POSITIVE]

/-! ## The contract of `add_bignum`, `sub_bignum` and `compare_bignum` -/

/-- C1: for canonical operands `a` and `b` and a call budget of at least 3,
`add_bignum` returns, leaves both operands as they were, and its result denotes
`value a + value b`, whatever the signs of `a` and `b`. -/
theorem add_bignum_value (fuel : Nat) (a b : bignum) (ha : canonical a) (hb : canonical b)
    (hf : 3 ≤ fuel) :
    ∃ r, add_bignum fuel a b = some (r, a, b) ∧ value r = value a + value b := by
  obtain ⟨f, rfl⟩ : ∃ f, fuel = f + 3 := ⟨fuel - 3, by omega⟩
  obtain ⟨r, e, _, hv⟩ := add_spec f a b ha.1.1 hb.1.1 (fun _ => ⟨ha.2, hb.2⟩)
  exact ⟨r, e, hv⟩

theorem add_bignum_value_witness :
    canonical (int_to_bignum (-123)) ∧ canonical (int_to_bignum 45) ∧
      ∃ r, add_bignum 3 (int_to_bignum (-123)) (int_to_bignum 45)
          = some (r, int_to_bignum (-123), int_to_bignum 45) ∧
        value r = value (int_to_bignum (-123)) + value (int_to_bignum 45) :=
  ⟨by decide, by decide, add_bignum_value 3 _ _ (by decide) (by decide) (by decide)⟩

/-- C2: for canonical operands `a` and `b` and a call budget of at least 4,
`sub_bignum` returns, leaves both operands as they were, and its result denotes
`value a - value b`, for every sign combination and whether or not `|a| < |b|`. -/
theorem sub_bignum_value (fuel : Nat) (a b : bignum) (ha : canonical a) (hb : canonical b)
    (hf : 4 ≤ fuel) :
    ∃ r, sub_bignum fuel a b = some (r, a, b) ∧ value r = value a - value b := by
  obtain ⟨f, rfl⟩ : ∃ f, fuel = f + 4 := ⟨fuel - 4, by omega⟩
  obtain ⟨r, e, _, hv⟩ := sub_spec f a b ha.1.1 hb.1.1 (fun _ => ⟨ha.2, hb.2⟩)
  exact ⟨r, e, hv⟩

theorem sub_bignum_value_witness :
    canonical (int_to_bignum 0) ∧ canonical (int_to_bignum 7) ∧
      ∃ r, sub_bignum 4 (int_to_bignum 0) (int_to_bignum 7)
          = some (r, int_to_bignum 0, int_to_bignum 7) ∧
        value r = value (int_to_bignum 0) - value (int_to_bignum 7) :=
  ⟨by decide, by decide, sub_bignum_value 4 _ _ (by decide) (by decide) (by decide)⟩

/-- C5: for canonical `a` and `b`, `compare_bignum a b` is `NEGATIVE` when
`value a < value b`, `0` when the values are equal and `POSITIVE` when
`value a > value b`; it takes no other value. -/
theorem compare_bignum_sign (a b : bignum) (ha : canonical a) (hb : canonical b) :
    (value a < value b → compare_bignum a b = NEGATIVE) ∧
    (value a = value b → compare_bignum a b = 0) ∧
    (value b < value a → compare_bignum a b = POSITIVE) ∧
    (compare_bignum a b = NEGATIVE ∨ compare_bignum a b = 0 ∨
      compare_bignum a b = POSITIVE) := by
  have key : compare_bignum a b =
      if value a < value b then NEGATIVE else if value a = value b then 0 else POSITIVE := by
    have a0 := magnitude_nonneg a ha.1.1.1
    have b0 := magnitude_nonneg b hb.1.1.1
    by_cases hs : a.signbit = b.signbit
    · rw [compare_same_sign a b ha.1.1 hb.1.1 hs]
      rcases sign_cases a ha.1.1.1 with h | h
      · rw [value_pos_of_sign a h, value_pos_of_sign b (hs ▸ h), h]
        split_ifs <;> first | rfl | omega
      · rw [value_neg_of_sign a h, value_neg_of_sign b (hs ▸ h), h]
        split_ifs <;> first | rfl | omega
    · have e : compare_bignum a b = a.signbit := by
        unfold compare_bignum
        simp only [ne_eq, hs, not_false_eq_true, if_true]
      rw [e]
      rcases sign_cases a ha.1.1.1 with h | h <;> rcases sign_cases b hb.1.1.1 with h2 | h2
      · rw [h, h2] at hs; exact absurd rfl hs
      · have := value_neg_of_normal b hb.1 h2
        have := value_nonneg_of_sign a ha.1.1.1 h
        rw [h, if_neg (by omega), if_neg (by omega)]
      · have := value_neg_of_normal a ha.1 h
        have := value_nonneg_of_sign b hb.1.1.1 h2
        rw [h, if_pos (by omega)]
      · rw [h, h2] at hs; exact absurd rfl hs
  rw [key]
  refine ⟨fun h => by rw [if_pos h], fun h => by rw [if_neg (by omega), if_pos h],
    fun h => by rw [if_neg (by omega), if_neg (by omega)], ?_⟩
  split_ifs
  · left; rfl
  · right; left; rfl
  · right; right; rfl

theorem compare_bignum_sign_witness :
    canonical (int_to_bignum (-100)) ∧ canonical (int_to_bignum (-99)) ∧
    compare_bignum (int_to_bignum (-100)) (int_to_bignum (-99)) = NEGATIVE :=
  ⟨by decide, by decide,
    (compare_bignum_sign (int_to_bignum (-100)) (int_to_bignum (-99))
      (by decide) (by decide)).1 (by decide)⟩

/-- C8: for canonical `a` and `b` and a call budget of at least 4, subtracting `b`
from the result of `add_bignum a b` gives back `a`: the same sign, `lastdigit` and
digit buffer. -/
theorem sub_add_cancel (fuel : Nat) (a b : bignum) (ha : canonical a) (hb : canonical b)
    (hf : 4 ≤ fuel) :
    ∃ s, add_bignum fuel a b = some (s, a, b) ∧ sub_bignum fuel s b = some (a, s, b) := by
  obtain ⟨f, rfl⟩ : ∃ f, fuel = f + 4 := ⟨fuel - 4, by omega⟩
  obtain ⟨s, e, hn, hv⟩ := add_spec (f + 1) a b ha.1.1 hb.1.1 (fun _ => ⟨ha.2, hb.2⟩)
  have la := abs_value_lt a ha
  have cap : s.signbit ≠ b.signbit →
      s.lastdigit ≤ MAX_DIGITS - 2 ∧ b.lastdigit ≤ MAX_DIGITS - 2 := by
    intro hne
    refine ⟨?_, hb.2⟩
    apply (canonical_of_normal s hn _).2
    rw [hv]
    rcases sign_cases s hn.1.1 with h | h <;> rcases sign_cases b hb.1.1.1 with h2 | h2
    · rw [h, h2] at hne; exact absurd rfl hne
    · have h3 := value_neg_of_normal b hb.1 h2
      have h4 := value_nonneg_of_sign s hn.1.1 h
      rw [hv] at h4
      rw [abs_lt] at la ⊢
      constructor <;> omega
    · have h3 := value_neg_of_normal s hn h
      have h4 := value_nonneg_of_sign b hb.1.1.1 h2
      rw [hv] at h3
      rw [abs_lt] at la ⊢
      constructor <;> omega
    · rw [h, h2] at hne; exact absurd rfl hne
  obtain ⟨r, e2, hn2, hv2⟩ := sub_spec f s b hn.1 hb.1.1 cap
  have : r = a := normal_ext r a hn2 ha.1 (by rw [hv2, hv]; ring)
  subst this
  exact ⟨s, e, e2⟩

theorem sub_add_cancel_witness :
    canonical (int_to_bignum (-5)) ∧ canonical (int_to_bignum 3) ∧
      ∃ s, add_bignum 4 (int_to_bignum (-5)) (int_to_bignum 3)
          = some (s, int_to_bignum (-5), int_to_bignum 3) ∧
        sub_bignum 4 s (int_to_bignum 3) = some (int_to_bignum (-5), s, int_to_bignum 3) :=
  ⟨by decide, by decide, sub_add_cancel 4 _ _ (by decide) (by decide) (by decide)⟩

/-- C9: for canonical `a` and `b` and a call budget of at least 3, `add_bignum a b`
and `add_bignum b a` return the same bignum (sign, `lastdigit` and digit buffer),
in the same-sign branch and in both mixed-sign branches. -/
theorem add_bignum_comm (fuel : Nat) (a b : bignum) (ha : canonical a) (hb : canonical b)
    (hf : 3 ≤ fuel) :
    ∃ r, add_bignum fuel a b = some (r, a, b) ∧ add_bignum fuel b a = some (r, b, a) := by
  obtain ⟨f, rfl⟩ : ∃ f, fuel = f + 3 := ⟨fuel - 3, by omega⟩
  obtain ⟨r, e, hn, hv⟩ := add_spec f a b ha.1.1 hb.1.1 (fun _ => ⟨ha.2, hb.2⟩)
  obtain ⟨r2, e2, hn2, hv2⟩ := add_spec f b a hb.1.1 ha.1.1 (fun _ => ⟨hb.2, ha.2⟩)
  have : r2 = r := normal_ext r2 r hn2 hn (by rw [hv2, hv]; ring)
  subst this
  exact ⟨r2, e, e2⟩

theorem add_bignum_comm_witness :
    canonical (int_to_bignum 123) ∧ canonical (int_to_bignum (-45)) ∧
      ∃ r, add_bignum 3 (int_to_bignum 123) (int_to_bignum (-45))
          = some (r, int_to_bignum 123, int_to_bignum (-45)) ∧
        add_bignum 3 (int_to_bignum (-45)) (int_to_bignum 123)
          = some (r, int_to_bignum (-45), int_to_bignum 123) :=
  ⟨by decide, by decide, add_bignum_comm 3 _ _ (by decide) (by decide) (by decide)⟩

/-- C10: for canonical `a`, `b`, `c` with `|a| + |b| + |c| < 10^127` and a call
budget of at least 3, `add_bignum (add_bignum a b) c` and
`add_bignum a (add_bignum b c)` return the same bignum (sign, `lastdigit` and
digit buffer). -/
theorem add_bignum_assoc (fuel : Nat) (a b c : bignum) (ha : canonical a) (hb : canonical b)
    (hc : canonical c) (hcap : |value a| + |value b| + |value c| < 10 ^ 127) (hf : 3 ≤ fuel) :
    ∃ s t r, add_bignum fuel a b = some (s, a, b) ∧ add_bignum fuel b c = some (t, b, c) ∧
      add_bignum fuel s c = some (r, s, c) ∧ add_bignum fuel a t = some (r, a, t) := by
  obtain ⟨f, rfl⟩ : ∃ f, fuel = f + 3 := ⟨fuel - 3, by omega⟩
  obtain ⟨s, e1, hs, vs⟩ := add_spec f a b ha.1.1 hb.1.1 (fun _ => ⟨ha.2, hb.2⟩)
  obtain ⟨t, e2, ht, vt⟩ := add_spec f b c hb.1.1 hc.1.1 (fun _ => ⟨hb.2, hc.2⟩)
  have a0 := abs_nonneg (value a)
  have b0 := abs_nonneg (value b)
  have c0 := abs_nonneg (value c)
  have cs : canonical s := by
    apply canonical_of_normal s hs
    have := abs_add (value a) (value b)
    rw [vs]
    simp only [MAX_DIGITS]
    omega
  have ct : canonical t := by
    apply canonical_of_normal t ht
    have := abs_add (value b) (value c)
    rw [vt]
    simp only [MAX_DIGITS]
    omega
  obtain ⟨r, e3, hr, vr⟩ := add_spec f s c hs.1 hc.1.1 (fun _ => ⟨cs.2, hc.2⟩)
  obtain ⟨r2, e4, hr2, vr2⟩ := add_spec f a t ha.1.1 ht.1 (fun _ => ⟨ha.2, ct.2⟩)
  have : r2 = r := normal_ext r2 r hr2 hr (by rw [vr2, vr, vs, vt]; ring)
  subst this
  exact ⟨s, t, r2, e1, e2, e3, e4⟩

theorem add_bignum_assoc_witness :
    canonical (int_to_bignum 123) ∧ canonical (int_to_bignum (-45)) ∧
    canonical (int_to_bignum (-999)) ∧
      ∃ s t r,
        add_bignum 3 (int_to_bignum 123) (int_to_bignum (-45))
          = some (s, int_to_bignum 123, int_to_bignum (-45)) ∧
        add_bignum 3 (int_to_bignum (-45)) (int_to_bignum (-999))
          = some (t, int_to_bignum (-45), int_to_bignum (-999)) ∧
        add_bignum 3 s (int_to_bignum (-999)) = some (r, s, int_to_bignum (-999)) ∧
        add_bignum 3 (int_to_bignum 123) t = some (r, int_to_bignum 123, t) :=
  ⟨by decide, by decide, by decide,
    add_bignum_assoc 3 _ _ _ (by decide) (by decide) (by decide) (by decide) (by decide)⟩

/-! ## The contract of `mul_bignum`, `div_bignum` and `int_to_bignum` -/

/-- C3: for canonical operands `a` and `b` with
`a.lastdigit + b.lastdigit + 2 < MAX_DIGITS` and a call budget of at least 3,
`mul_bignum` returns, leaves both operands as they were, and its result denotes
`value a * value b`; when the product is not zero the sign of the result is the
product of the operand signs.  The zero and identity short-circuits and the
repeated-addition loop are all covered, with `a` of either sign. -/
theorem mul_bignum_value (fuel : Nat) (a b : bignum) (ha : canonical a) (hb : canonical b)
    (hcap : a.lastdigit + b.lastdigit + 2 < MAX_DIGITS) (hf : 3 ≤ fuel) :
    ∃ r, mul_bignum fuel a b = some (r, a, b) ∧ value r = value a * value b ∧
      (value a * value b ≠ 0 → r.signbit = a.signbit * b.signbit) := by
  obtain ⟨f, rfl⟩ : ∃ f, fuel = f + 3 := ⟨fuel - 3, by omega⟩
  obtain ⟨r, e, _, hv, hs⟩ := mul_spec f a b ha.1 hb.1 hcap
  exact ⟨r, e, hv, fun h => hs (by rw [hv]; exact h)⟩

theorem mul_bignum_value_witness :
    canonical (int_to_bignum (-123)) ∧ canonical (int_to_bignum 45) ∧
      ∃ r, mul_bignum 3 (int_to_bignum (-123)) (int_to_bignum 45)
          = some (r, int_to_bignum (-123), int_to_bignum 45) ∧
        value r = value (int_to_bignum (-123)) * value (int_to_bignum 45) ∧
        (value (int_to_bignum (-123)) * value (int_to_bignum 45) ≠ 0 →
          r.signbit = (int_to_bignum (-123)).signbit * (int_to_bignum 45).signbit) :=
  ⟨by decide, by decide,
    mul_bignum_value 3 _ _ (by decide) (by decide) (by decide) (by decide)⟩

/-- C4, at the failing input `a = -5`, `b = 3`: whatever the budget, the signed
test `compare_bignum(a, b) == NEGATIVE` of `div_bignum` holds and the function
returns the freshly initialised zero, while the quotient truncated toward zero
is `-1`. -/
theorem div_bignum_neg5_by_3 (fuel : Nat) :
    div_bignum fuel (int_to_bignum (-5)) (int_to_bignum 3)
        = some (int_to_bignum 0, int_to_bignum (-5), int_to_bignum 3) ∧
      value (int_to_bignum 0) = 0 ∧
      (value (int_to_bignum (-5))).tdiv (value (int_to_bignum 3)) = -1 := by
  have h : (is_zero (int_to_bignum (-5)) ||
      compare_bignum (int_to_bignum (-5)) (int_to_bignum 3) == NEGATIVE) = true := by decide
  refine ⟨?_, by decide, by decide⟩
  unfold div_bignum
  simp only [h, if_true]
  rfl

/-- C6: for every 32-bit signed `m`, the most negative one included,
`int_to_bignum m` has sign `POSITIVE` when `m >= 0` and `NEGATIVE` otherwise, a full
buffer whose digit `i` is the `i`-th base-10 digit of `|m|` counted from the least
significant one (and `0` from the number of digits on), `lastdigit` equal to the
number of digits minus one (`0` for `m = 0`), and denotes `m`. -/
theorem int_to_bignum_exact (m : Int) (h1 : -2 ^ 31 ≤ m) (h2 : m < 2 ^ 31) :
    (int_to_bignum m).signbit = (if 0 ≤ m then POSITIVE else NEGATIVE) ∧
    (int_to_bignum m).digits.length = MAX_DIGITS ∧
    (∀ i, rd (int_to_bignum m).digits i = (((Nat.digits 10 m.natAbs).getD i 0 : Nat) : Int)) ∧
    (int_to_bignum m).lastdigit = (Nat.digits 10 m.natAbs).length - 1 ∧
    value (int_to_bignum m) = m :=
  int_to_bignum_spec m h1 h2

theorem int_to_bignum_exact_witness :
    (int_to_bignum (-2147483648)).signbit = NEGATIVE ∧
    (int_to_bignum (-2147483648)).lastdigit = 9 ∧
    value (int_to_bignum (-2147483648)) = -2147483648 := by
  have h := int_to_bignum_exact (-2147483648) (by norm_num) (by norm_num)
  refine ⟨?_, ?_, h.2.2.2.2⟩
  · rw [h.1]; decide
  · rw [h.2.2.2.1]; norm_num

/-- C7, at the failing input `a = -5`, `b = 3`: `div_bignum` returns `0`,
`mul_bignum 0 b` is `0` and `sub_bignum a 0` is `-5`, whose magnitude `5` is not
smaller than the magnitude `3` of `b`. -/
theorem div_bound_neg5_by_3 :
    div_bignum 10 (int_to_bignum (-5)) (int_to_bignum 3)
        = some (int_to_bignum 0, int_to_bignum (-5), int_to_bignum 3) ∧
    mul_bignum 10 (int_to_bignum 0) (int_to_bignum 3)
        = some (int_to_bignum 0, int_to_bignum 0, int_to_bignum 3) ∧
    sub_bignum 10 (int_to_bignum (-5)) (int_to_bignum 0)
        = some (int_to_bignum (-5), int_to_bignum (-5), int_to_bignum 0) ∧
    magnitude (int_to_bignum (-5)) = 5 ∧ magnitude (int_to_bignum 3) = 3 := by
  refine ⟨by decide, by decide, by decide, by decide, by decide⟩

/-! ## Comparison against subtraction, cancellation -/

/-- C11: for canonical `a` and `b` and a call budget of at least 4, `sub_bignum a b`
returns `r` with `compare_bignum a b = NEGATIVE` exactly when `r` is negative and
not zero, `compare_bignum a b = 0` exactly when `r` is the zero with digit `0`,
`lastdigit` `0` and sign `POSITIVE`, and `compare_bignum a b = POSITIVE` exactly
when `r` is positive and not zero. -/
theorem compare_agrees_with_sub (fuel : Nat) (a b : bignum) (ha : canonical a)
    (hb : canonical b) (hf : 4 ≤ fuel) :
    ∃ r, sub_bignum fuel a b = some (r, a, b) ∧
      (compare_bignum a b = NEGATIVE ↔ r.signbit = NEGATIVE ∧ is_zero r = false) ∧
      (compare_bignum a b = 0 ↔ rd r.digits 0 = 0 ∧ r.lastdigit = 0 ∧ r.signbit = POSITIVE) ∧
      (compare_bignum a b = POSITIVE ↔ r.signbit = POSITIVE ∧ is_zero r = false) := by
  obtain ⟨f, rfl⟩ : ∃ f, fuel = f + 4 := ⟨fuel - 4, by omega⟩
  obtain ⟨r, e, hn, hv⟩ := sub_spec f a b ha.1.1 hb.1.1 (fun _ => ⟨ha.2, hb.2⟩)
  obtain ⟨s1, s2, s3⟩ := normal_sign_iff r hn
  have hc := compare_value a b ha.1 hb.1
  refine ⟨r, e, ?_, ?_, ?_⟩
  · rw [← s1, hv, hc]
    constructor
    · intro h
      by_contra hlt
      rw [if_neg (by omega)] at h
      split at h <;> exact absurd h (by decide)
    · intro h
      rw [if_pos (by omega)]
  · rw [← s2, hv, hc]
    constructor
    · intro h
      by_contra hne
      split at h
      · exact absurd h (by decide)
      · rw [if_neg (by omega)] at h; exact absurd h (by decide)
    · intro h
      rw [if_neg (by omega), if_pos (by omega)]
  · rw [← s3, hv, hc]
    constructor
    · intro h
      by_contra hlt
      split at h
      · exact absurd h (by decide)
      · rw [if_pos (by omega)] at h; exact absurd h (by decide)
    · intro h
      rw [if_neg (by omega), if_neg (by omega)]

theorem compare_agrees_with_sub_witness :
    canonical (int_to_bignum 100) ∧ canonical (int_to_bignum 100) ∧
      ∃ r, sub_bignum 4 (int_to_bignum 100) (int_to_bignum 100)
          = some (r, int_to_bignum 100, int_to_bignum 100) ∧
        (compare_bignum (int_to_bignum 100) (int_to_bignum 100) = NEGATIVE ↔
          r.signbit = NEGATIVE ∧ is_zero r = false) ∧
        (compare_bignum (int_to_bignum 100) (int_to_bignum 100) = 0 ↔
          rd r.digits 0 = 0 ∧ r.lastdigit = 0 ∧ r.signbit = POSITIVE) ∧
        (compare_bignum (int_to_bignum 100) (int_to_bignum 100) = POSITIVE ↔
          r.signbit = POSITIVE ∧ is_zero r = false) :=
  ⟨by decide, by decide,
    compare_agrees_with_sub 4 _ _ (by decide) (by decide) (by decide)⟩

/-- C12: for canonical `a` and a call budget of at least 3, `add_bignum` applied to
`a` and its negation returns the canonical zero: `digits[0] = 0`, `lastdigit = 0`
and `signbit = POSITIVE`. -/
theorem add_negate_zero (fuel : Nat) (a : bignum) (ha : canonical a) (hf : 3 ≤ fuel) :
    ∃ r, add_bignum fuel a (negate a) = some (r, a, negate a) ∧
      rd r.digits 0 = 0 ∧ r.lastdigit = 0 ∧ r.signbit = POSITIVE := by
  obtain ⟨f, rfl⟩ : ∃ f, fuel = f + 3 := ⟨fuel - 3, by omega⟩
  obtain ⟨hc, hv⟩ := negate_spec a ha
  obtain ⟨r, e, hn, hr⟩ := add_spec f a (negate a) ha.1.1 hc.1.1 (fun _ => ⟨ha.2, hc.2⟩)
  exact ⟨r, e, (normal_sign_iff r hn).2.1.1 (by rw [hr, hv]; ring)⟩

theorem add_negate_zero_witness :
    canonical (int_to_bignum (-2147483648)) ∧
      ∃ r, add_bignum 3 (int_to_bignum (-2147483648)) (negate (int_to_bignum (-2147483648)))
          = some (r, int_to_bignum (-2147483648), negate (int_to_bignum (-2147483648))) ∧
        rd r.digits 0 = 0 ∧ r.lastdigit = 0 ∧ r.signbit = POSITIVE :=
  ⟨by decide, add_negate_zero 3 _ (by decide) (by decide)⟩

/-- C16: for every bignum `n` with `lastdigit < MAX_DIGITS`, whatever its digits and
sign, `zero_justify` applied twice gives the same bignum as applied once; and a
bignum whose `lastdigit` sits on a non-zero digit, or that is the zero with
`lastdigit` `0` and sign `POSITIVE`, is returned unchanged. -/
theorem zero_justify_idempotent (n : bignum) (_h : n.lastdigit < MAX_DIGITS) :
    zero_justify (zero_justify n) = zero_justify n ∧
    ((rd n.digits n.lastdigit ≠ 0 ∨
        (n.lastdigit = 0 ∧ rd n.digits 0 = 0 ∧ n.signbit = POSITIVE)) →
      zero_justify n = n) := by
  refine ⟨zero_justify_twice n, fun h => ?_⟩
  rcases h with h | ⟨h1, h2, h3⟩
  · apply zero_justify_fix n (Or.inr h)
    intro h1 h2
    rw [h1] at h
    exact absurd h2 h
  · exact zero_justify_fix n (Or.inl h1) (fun _ _ => h3)

theorem zero_justify_idempotent_witness :
    ({ int_to_bignum (-30) with lastdigit := 5 } : bignum).lastdigit < MAX_DIGITS ∧
    zero_justify (zero_justify { int_to_bignum (-30) with lastdigit := 5 })
      = zero_justify { int_to_bignum (-30) with lastdigit := 5 } :=
  ⟨by decide, (zero_justify_idempotent { int_to_bignum (-30) with lastdigit := 5 }
    (by decide)).1⟩

/-- C18: for canonical `n` and `d` with `n.lastdigit + d < MAX_DIGITS`, `decimal_shl`
multiplies the value by `10^d` and keeps the sign; every digit at an index
`i <= lastdigit` moves to index `i + d` and the digits at indices below `d` are `0`;
when `n` is not zero `lastdigit` grows by exactly `d`; when `n` is zero or `d = 0`
the bignum is returned unchanged. -/
theorem decimal_shl_pow10 (n : bignum) (d : Nat) (hn : canonical n)
    (hcap : n.lastdigit + d < MAX_DIGITS) :
    value (decimal_shl n d) = value n * 10 ^ d ∧
    (decimal_shl n d).signbit = n.signbit ∧
    (∀ i, i ≤ n.lastdigit → rd (decimal_shl n d).digits (i + d) = rd n.digits i) ∧
    (∀ i, i < d → rd (decimal_shl n d).digits i = 0) ∧
    (is_zero n = false → (decimal_shl n d).lastdigit = n.lastdigit + d) ∧
    (is_zero n = true ∨ d = 0 → decimal_shl n d = n) := by
  obtain ⟨_, hv, hs⟩ := decimal_shl_spec n d hn.1 hcap
  refine ⟨hv, hs, ?_, ?_, ?_, decimal_shl_of_zero n d⟩
  · intro i hi
    by_cases hz : is_zero n = true
    · rw [decimal_shl_of_zero n d (Or.inl hz)]
      obtain ⟨h1, h2⟩ := (is_zero_iff n).1 hz
      have : i = 0 := by omega
      subst this
      rw [Nat.zero_add]
      by_cases hd : d = 0
      · rw [hd]
      · rw [h2]
        exact hn.1.1.1.2.2.2.2 d (by omega) (by omega)
    · by_cases hd : d = 0
      · rw [decimal_shl_of_zero n d (Or.inr hd), hd, Nat.add_zero]
      · rw [rd_decimal_shl n d hn.1.1.1 (by simpa using hz) hd hcap (i + d) (by omega),
          if_neg (by omega), Nat.add_sub_cancel]
  · intro i hi
    by_cases hz : is_zero n = true
    · rw [decimal_shl_of_zero n d (Or.inl hz)]
      obtain ⟨h1, h2⟩ := (is_zero_iff n).1 hz
      by_cases h0 : i = 0
      · rw [h0]; exact h2
      · exact hn.1.1.1.2.2.2.2 i (by omega) (by omega)
    · rw [rd_decimal_shl n d hn.1.1.1 (by simpa using hz) (by omega) hcap i (by omega),
        if_pos hi]
  · intro hz
    by_cases hd : d = 0
    · rw [decimal_shl_of_zero n d (Or.inr hd), hd, Nat.add_zero]
    · rw [decimal_shl_of_pos n d hz hd]

theorem decimal_shl_pow10_witness :
    canonical (int_to_bignum (-123)) ∧ (int_to_bignum (-123)).lastdigit + 5 < MAX_DIGITS ∧
    value (decimal_shl (int_to_bignum (-123)) 5) = value (int_to_bignum (-123)) * 10 ^ 5 ∧
    (decimal_shl (int_to_bignum (-123)) 5).lastdigit = 7 := by
  have h := decimal_shl_pow10 (int_to_bignum (-123)) 5 (by decide) (by decide)
  exact ⟨by decide, by decide, h.1, by rw [h.2.2.2.2.1 (by decide)]; decide⟩

/-! ## Headroom and significant digits -/

/-- C14 fails as stated: `5 * 10^126` and `7 * 10^126` are canonical with
`lastdigit = 126`, and `add_bignum` returns their sum with `lastdigit = 127`, which
is not below `MAX_DIGITS - 1`. -/
theorem add_headroom_counterexample :
    canonical (decimal_shl (int_to_bignum 5) 126) ∧
    canonical (decimal_shl (int_to_bignum 7) 126) ∧
    (add_bignum 3 (decimal_shl (int_to_bignum 5) 126) (decimal_shl (int_to_bignum 7) 126)).map
        (fun t => t.1.lastdigit) = some 127 ∧
    ¬ (127 < MAX_DIGITS - 1) := by
  refine ⟨by decide, by decide, by decide, by decide⟩

/-- C14 as amended: for canonical `a` and `b` and a call budget of at least 3, the
result `r` of `add_bignum` has `r.lastdigit < MAX_DIGITS`, and
`r.lastdigit < MAX_DIGITS - 1` holds exactly when `|value a + value b| < 10^127`. -/
theorem add_headroom (fuel : Nat) (a b : bignum) (ha : canonical a) (hb : canonical b)
    (hf : 3 ≤ fuel) :
    ∃ r, add_bignum fuel a b = some (r, a, b) ∧ r.lastdigit < MAX_DIGITS ∧
      (r.lastdigit < MAX_DIGITS - 1 ↔ |value a + value b| < 10 ^ 127) := by
  obtain ⟨f, rfl⟩ : ∃ f, fuel = f + 3 := ⟨fuel - 3, by omega⟩
  obtain ⟨r, e, hn, hv⟩ := add_spec f a b ha.1.1 hb.1.1 (fun _ => ⟨ha.2, hb.2⟩)
  refine ⟨r, e, hn.1.1.2.2.1, ?_⟩
  have h := lastdigit_le_iff r hn.1 126
  rw [← natAbs_value r hn.1.1, hv] at h
  rw [← h]
  simp only [MAX_DIGITS]
  omega

theorem add_headroom_witness :
    canonical (decimal_shl (int_to_bignum 5) 126) ∧
    canonical (decimal_shl (int_to_bignum (-7)) 126) ∧
      ∃ r, add_bignum 3 (decimal_shl (int_to_bignum 5) 126)
            (decimal_shl (int_to_bignum (-7)) 126)
          = some (r, decimal_shl (int_to_bignum 5) 126,
              decimal_shl (int_to_bignum (-7)) 126) ∧
        r.lastdigit < MAX_DIGITS ∧
        (r.lastdigit < MAX_DIGITS - 1 ↔
          |value (decimal_shl (int_to_bignum 5) 126)
            + value (decimal_shl (int_to_bignum (-7)) 126)| < 10 ^ 127) :=
  ⟨by decide, by decide, add_headroom 3 _ _ (by decide) (by decide) (by decide)⟩

/-- C17 fails as stated: the buffer of `1` with a stray `7` at index `1`, above
`lastdigit = 0`, agrees with `1` in sign, `lastdigit` and the digit at index `0`, has
all digits in `0..9`, and yet `add_bignum` with `1` returns `72` for it and `2` for
`1`; with a negative sign `sub_bignum` returns `-72` against `-2`. -/
theorem significant_digits_counterexample :
    same_upto 0 { int_to_bignum 1 with digits := wr (int_to_bignum 1).digits 1 7 }
      (int_to_bignum 1) ∧
    (int_to_bignum 1).lastdigit = 0 ∧ canonical (int_to_bignum 1) ∧
    (∀ i, i < MAX_DIGITS →
      0 ≤ rd (wr (int_to_bignum 1).digits 1 7) i ∧ rd (wr (int_to_bignum 1).digits 1 7) i ≤ 9) ∧
    (add_bignum 3 { int_to_bignum 1 with digits := wr (int_to_bignum 1).digits 1 7 }
        (int_to_bignum 1)).map (fun t => value t.1) = some 72 ∧
    (add_bignum 3 (int_to_bignum 1) (int_to_bignum 1)).map (fun t => value t.1) = some 2 ∧
    (sub_bignum 4 { int_to_bignum (-1) with digits := wr (int_to_bignum (-1)).digits 1 7 }
        (int_to_bignum 1)).map (fun t => value t.1) = some (-72) ∧
    (sub_bignum 4 (int_to_bignum (-1)) (int_to_bignum 1)).map (fun t => value t.1)
      = some (-2) := by
  refine ⟨by decide, by decide, by decide, by decide, by decide, by decide, by decide,
    by decide⟩

/-- C17 as amended: the results of `add_bignum` and `sub_bignum` depend on the digits
of an operand only at the indices `0..max(a.lastdigit, b.lastdigit) + 1`.  For every
`b` and every `a`, `a2` with the same `signbit`, the same `lastdigit` and the same
digits at those indices, `add_bignum a b` and `add_bignum a2 b` return the same
result, and so do `sub_bignum a b` and `sub_bignum a2 b`, for every call budget. -/
theorem add_sub_significant (fuel : Nat) (a a2 b : bignum)
    (h : same_upto (max a.lastdigit b.lastdigit + 1) a a2) :
    (add_bignum fuel a b).map (fun t => t.1) = (add_bignum fuel a2 b).map (fun t => t.1) ∧
    (sub_bignum fuel a b).map (fun t => t.1) = (sub_bignum fuel a2 b).map (fun t => t.1) :=
  add_sub_congr (max a.lastdigit b.lastdigit + 1) fuel a a2 b b h
    ⟨rfl, rfl, fun _ _ => rfl⟩ (le_refl _)

theorem add_sub_significant_witness :
    same_upto (max (int_to_bignum 1).lastdigit (int_to_bignum 1).lastdigit + 1)
      (int_to_bignum 1) { int_to_bignum 1 with digits := wr (int_to_bignum 1).digits 2 7 } ∧
    (add_bignum 3 (int_to_bignum 1) (int_to_bignum 1)).map (fun t => t.1)
      = (add_bignum 3 { int_to_bignum 1 with digits := wr (int_to_bignum 1).digits 2 7 }
          (int_to_bignum 1)).map (fun t => t.1) :=
  ⟨by decide, (add_sub_significant 3 (int_to_bignum 1)
    { int_to_bignum 1 with digits := wr (int_to_bignum 1).digits 2 7 } (int_to_bignum 1)
    (by decide)).1⟩

/-! ## Results, operands and division -/

/-- C13: for canonical `a` and `b` and a call budget of at least 10, each of
`add_bignum`, `sub_bignum`, `mul_bignum` (when
`a.lastdigit + b.lastdigit + 2 < MAX_DIGITS`) and `div_bignum` (when `b` is not zero)
returns a normal result: every digit in `0..9`, `lastdigit` on a non-zero digit
unless it is `0`, zero stored with sign `POSITIVE`, and every digit above
`lastdigit` equal to `0`.  All return paths are covered. -/
theorem results_normal (fuel : Nat) (a b : bignum) (ha : canonical a) (hb : canonical b)
    (hf : 10 ≤ fuel) :
    (∃ r, add_bignum fuel a b = some (r, a, b) ∧ normal r) ∧
    (∃ r, sub_bignum fuel a b = some (r, a, b) ∧ normal r) ∧
    (a.lastdigit + b.lastdigit + 2 < MAX_DIGITS →
      ∃ r, mul_bignum fuel a b = some (r, a, b) ∧ normal r) ∧
    (is_zero b = false → ∃ r, div_bignum fuel a b = some (r, a, b) ∧ normal r) := by
  obtain ⟨f, rfl⟩ : ∃ f, fuel = f + 10 := ⟨fuel - 10, by omega⟩
  refine ⟨?_, ?_, ?_, ?_⟩
  · obtain ⟨r, e, hn, _⟩ := add_spec (f + 7) a b ha.1.1 hb.1.1 (fun _ => ⟨ha.2, hb.2⟩)
    exact ⟨r, e, hn⟩
  · obtain ⟨r, e, hn, _⟩ := sub_spec (f + 6) a b ha.1.1 hb.1.1 (fun _ => ⟨ha.2, hb.2⟩)
    exact ⟨r, e, hn⟩
  · intro hcap
    obtain ⟨r, e, hn, _⟩ := mul_spec (f + 7) a b ha.1 hb.1 hcap
    exact ⟨r, e, hn⟩
  · intro hbz
    obtain ⟨r, e, hn, _⟩ := div_spec f a b ha.1 hb.1 hb.2 hbz
    exact ⟨r, e, hn⟩

theorem results_normal_witness :
    canonical (int_to_bignum (-123)) ∧ canonical (int_to_bignum 45) ∧
    (∃ r, add_bignum 10 (int_to_bignum (-123)) (int_to_bignum 45)
        = some (r, int_to_bignum (-123), int_to_bignum 45) ∧ normal r) ∧
    (∃ r, div_bignum 10 (int_to_bignum (-123)) (int_to_bignum 45)
        = some (r, int_to_bignum (-123), int_to_bignum 45) ∧ normal r) := by
  have h := results_normal 10 (int_to_bignum (-123)) (int_to_bignum 45) (by decide)
    (by decide) (by decide)
  exact ⟨by decide, by decide, h.1, h.2.2.2 (by decide)⟩

/-- C15: for canonical `a` and `b` held in objects distinct from each other and from
the result, and a call budget of at least 10, the operand objects hold `a` and `b`
again when `add_bignum`, `sub_bignum`, `mul_bignum` (capacity permitting) or
`div_bignum` (`b` not zero) returns: every temporary sign flip is undone. -/
theorem operands_restored (fuel : Nat) (a b : bignum) (ha : canonical a) (hb : canonical b)
    (hf : 10 ≤ fuel) :
    (add_bignum fuel a b).map (fun t => t.2) = some (a, b) ∧
    (sub_bignum fuel a b).map (fun t => t.2) = some (a, b) ∧
    (a.lastdigit + b.lastdigit + 2 < MAX_DIGITS →
      (mul_bignum fuel a b).map (fun t => t.2) = some (a, b)) ∧
    (is_zero b = false → (div_bignum fuel a b).map (fun t => t.2) = some (a, b)) := by
  obtain ⟨f, rfl⟩ : ∃ f, fuel = f + 10 := ⟨fuel - 10, by omega⟩
  refine ⟨?_, ?_, ?_, ?_⟩
  · obtain ⟨r, e, _⟩ := add_spec (f + 7) a b ha.1.1 hb.1.1 (fun _ => ⟨ha.2, hb.2⟩)
    rw [e]; rfl
  · obtain ⟨r, e, _⟩ := sub_spec (f + 6) a b ha.1.1 hb.1.1 (fun _ => ⟨ha.2, hb.2⟩)
    rw [e]; rfl
  · intro hcap
    obtain ⟨r, e, _⟩ := mul_spec (f + 7) a b ha.1 hb.1 hcap
    rw [e]; rfl
  · intro hbz
    obtain ⟨r, e, _⟩ := div_spec f a b ha.1 hb.1 hb.2 hbz
    rw [e]; rfl

theorem operands_restored_witness :
    canonical (int_to_bignum (-123)) ∧ canonical (int_to_bignum (-45)) ∧
    (sub_bignum 10 (int_to_bignum (-123)) (int_to_bignum (-45))).map (fun t => t.2)
      = some (int_to_bignum (-123), int_to_bignum (-45)) ∧
    (div_bignum 10 (int_to_bignum (-123)) (int_to_bignum (-45))).map (fun t => t.2)
      = some (int_to_bignum (-123), int_to_bignum (-45)) := by
  have h := operands_restored 10 (int_to_bignum (-123)) (int_to_bignum (-45)) (by decide)
    (by decide) (by decide)
  exact ⟨by decide, by decide, h.2.1, h.2.2.2 (by decide)⟩

/-- C19: for canonical `a` and `b` with `b` not zero, `div_bignum` returns as soon as
the budget is 10, that is with at most 10 evaluations of the `while` test and so at
most 9 subtractions at each dividend position, and every digit of the quotient is
in `0..9`. -/
theorem div_bignum_terminates (fuel : Nat) (a b : bignum) (ha : canonical a)
    (hb : canonical b) (hbz : is_zero b = false) (hf : 10 ≤ fuel) :
    ∃ r, div_bignum fuel a b = some (r, a, b) ∧
      ∀ i, i < MAX_DIGITS → 0 ≤ rd r.digits i ∧ rd r.digits i ≤ 9 := by
  obtain ⟨f, rfl⟩ : ∃ f, fuel = f + 10 := ⟨fuel - 10, by omega⟩
  obtain ⟨r, e, hn, _⟩ := div_spec f a b ha.1 hb.1 hb.2 hbz
  exact ⟨r, e, hn.1.1.2.2.2.1⟩

theorem div_bignum_terminates_witness :
    canonical (int_to_bignum 2147483647) ∧ canonical (int_to_bignum 12) ∧
      ∃ r, div_bignum 10 (int_to_bignum 2147483647) (int_to_bignum 12)
          = some (r, int_to_bignum 2147483647, int_to_bignum 12) ∧
        ∀ i, i < MAX_DIGITS → 0 ≤ rd r.digits i ∧ rd r.digits i ≤ 9 :=
  ⟨by decide, by decide,
    div_bignum_terminates 10 _ _ (by decide) (by decide) (by decide) (by decide)⟩

/-- C20: for canonical `a` with `value a >= 0`, canonical `b` not zero of either
sign, and a budget of at least 10, `div_bignum` returns the quotient of `value a` by
`value b` truncated toward zero: its magnitude is `value a / |value b|` rounded down
and it is negative exactly when `b` is negative and that quotient is not zero. -/
theorem div_bignum_nonneg_dividend (fuel : Nat) (a b : bignum) (ha : canonical a)
    (hb : canonical b) (ha0 : 0 ≤ value a) (hbz : is_zero b = false) (hf : 10 ≤ fuel) :
    ∃ r, div_bignum fuel a b = some (r, a, b) ∧
      value r = (value a).tdiv (value b) ∧
      magnitude r = value a / |value b| ∧
      (r.signbit = NEGATIVE ↔ value b < 0 ∧ value a / |value b| ≠ 0) := by
  obtain ⟨f, rfl⟩ : ∃ f, fuel = f + 10 := ⟨fuel - 10, by omega⟩
  obtain ⟨r, e, hn, hv⟩ := div_spec_nonneg f a b ha.1 hb.1 hb.2 hbz ha0
  have has := sign_pos_of_normal a ha.1 ha0
  have hA0 := magnitude_nonneg a ha.1.1.1
  have hB0 := magnitude_nonneg b hb.1.1.1
  have hq0 : 0 ≤ magnitude a / magnitude b := Int.ediv_nonneg hA0 hB0
  have hva := value_pos_of_sign a has
  have habs := natAbs_value b hb.1.1.1
  have hm : magnitude r = magnitude a / magnitude b := by
    rw [← natAbs_value r hn.1.1, hv, abs_mul, abs_of_nonneg hq0]
    rcases sign_cases b hb.1.1.1 with h | h <;> rw [h] <;> simp [POSITIVE, NEGATIVE]
  refine ⟨r, e, ?_, ?_, ?_⟩
  · rw [hv, hva]
    rcases sign_cases b hb.1.1.1 with h | h
    · rw [value_pos_of_sign b h, h, Int.tdiv_eq_ediv hA0 hB0]
      simp [POSITIVE]
    · rw [value_neg_of_sign b h, h, Int.tdiv_neg, Int.tdiv_eq_ediv hA0 hB0]
      simp [NEGATIVE]
  · rw [hm, hva, habs]
  · rw [hva, habs]
    constructor
    · intro hs
      have hneg := value_neg_of_normal r hn hs
      rw [hv] at hneg
      rcases sign_cases b hb.1.1.1 with h | h
      · rw [h] at hneg
        simp only [POSITIVE, one_mul] at hneg
        omega
      · refine ⟨value_neg_of_normal b hb.1 h, fun h0 => ?_⟩
        rw [h0] at hneg
        simp at hneg
    · rintro ⟨hbn, hne⟩
      have hbs : b.signbit = NEGATIVE := by
        rcases sign_cases b hb.1.1.1 with h | h
        · have := value_nonneg_of_sign b hb.1.1.1 h
          omega
        · exact h
      have hneg : value r < 0 := by
        rw [hv, hbs]
        simp only [NEGATIVE]
        omega
      exact ((normal_sign_iff r hn).1.1 hneg).1

theorem div_bignum_nonneg_dividend_witness :
    canonical (int_to_bignum 123) ∧ canonical (int_to_bignum (-45)) ∧
      ∃ r, div_bignum 10 (int_to_bignum 123) (int_to_bignum (-45))
          = some (r, int_to_bignum 123, int_to_bignum (-45)) ∧
        value r = (value (int_to_bignum 123)).tdiv (value (int_to_bignum (-45))) ∧
        magnitude r = value (int_to_bignum 123) / |value (int_to_bignum (-45))| ∧
        (r.signbit = NEGATIVE ↔
          value (int_to_bignum (-45)) < 0 ∧
            value (int_to_bignum 123) / |value (int_to_bignum (-45))| ≠ 0) :=
  ⟨by decide, by decide,
    div_bignum_nonneg_dividend 10 _ _ (by decide) (by decide) (by decide) (by decide)
      (by decide)⟩

end Bignum
